import Mathlib

/-!
Verification of the task-scheduling core of a todo application
(`lib/dependencies.ts`): dependency parsing, cycle detection,
topological ordering (Kahn's algorithm), earliest-start / completion
scheduling and critical-path extraction.

The TypeScript source is shallowly embedded:
* JavaScript `Map`s (which iterate in insertion order, and whose `set`
  updates a present key in place) become association lists over `Int`.
* `Date` values become `Int` milliseconds since the epoch.
* Each call of `new Date()` reads the next sample of an injected clock
  `clk : Nat → Int` (sample index = how many calls happened before).
* The stored dependency field (a JSON string or `null`) is represented
  by its parse outcome, since `JSON.parse` is a platform builtin:
  `absent` (null / undefined / empty string), `malformed` (a string
  `JSON.parse` rejects, such as `not-json`), or `parsed v` for a string
  that parses to the JSON value `v`.
-/

/-- Result of `JSON.parse` on a dependency string: a JSON value. -/
inductive JsonVal where
  | num (n : Int)
  | str (s : String)
  | boolean (b : Bool)
  | null
  | arr (elems : List JsonVal)

/-- Mirrors the JavaScript test `typeof id === 'number'`. -/
def JsonVal.isNum : JsonVal → Bool
  | .num _ => true
  | _ => false

/-- Mirrors `Array.isArray(parsed)`. -/
def JsonVal.isArr : JsonVal → Bool
  | .arr _ => true
  | _ => false

/-- Numeric payload of a JSON value known to be a number. -/
def JsonVal.numOf : JsonVal → Int
  | .num n => n
  | _ => 0

/-- A task's stored `dependencies` field, represented by what
`JSON.parse` would do to it: `absent` for `null`/`undefined`/`""`
(all falsy, so `!dependencies` short-circuits), `malformed` for a
string that throws in `JSON.parse`, `parsed v` for a string parsing
to the JSON value `v`. -/
inductive DepsField where
  | absent
  | malformed
  | parsed (v : JsonVal)

/-- Embedding of `parseDependencies` (lib/dependencies.ts, lines 16-24):
falsy input gives `[]`; a parse failure is caught and gives `[]`; a
parsed non-array gives `[]`; a parsed array is filtered down to its
number elements, in order. -/
def parseDependencies : DepsField → List Int
  | .absent => []
  | .malformed => []
  | .parsed v =>
    match v with
    | .arr elems => (elems.filter (fun e => e.isNum)).map (fun e => e.numOf)
    | _ => []

/-- A task record as the scheduling core sees it: the Prisma `Todo`
(id, title, createdAt, dueDate, imageUrl) extended with the optional
serialized dependency list and the optional integer duration in hours
(`duration Int?` in the schema). -/
structure Todo where
  id : Int
  title : String
  createdAt : Int
  dueDate : Option Int
  imageUrl : Option String
  dependencies : DepsField
  duration : Option Int

/-- The dependency list of one task: `parseDependencies(todo.dependencies || null)`. -/
def parseDeps (t : Todo) : List Int :=
  parseDependencies t.dependencies

/-- Effective duration in hours: `todo.duration || 1` (JavaScript `||`,
so a stored `0` is falsy and also falls back to the default 1). -/
def effDuration (t : Todo) : Int :=
  match t.duration with
  | none => 1
  | some d => if d = 0 then 1 else d

/-- The identifiers of a task collection, in collection order. -/
def idsOf (todos : List Todo) : List Int :=
  todos.map (·.id)

/-- The first task of the collection carrying a given identifier
(`todos.find(t => t.id === todoId)`). -/
def findTodo (todos : List Todo) (k : Int) : Option Todo :=
  todos.find? (fun t => t.id = k)

/-! ### JavaScript `Map` as an association list

Keys are task identifiers (`Int`).  Iteration order is insertion
order; `set` on a present key updates the value in place, `set` on a
fresh key appends at the end.  All maps the scheduler builds have
pairwise distinct keys. -/

/-- `Map.get`. -/
def jget {α : Type} : List (Int × α) → Int → Option α
  | [], _ => none
  | p :: m, k => if p.1 = k then some p.2 else jget m k

/-- `Map.has`. -/
def jhas {α : Type} (m : List (Int × α)) (k : Int) : Bool :=
  (jget m k).isSome

/-- `Map.set`: update in place if the key is present, append otherwise. -/
def jset {α : Type} : List (Int × α) → Int → α → List (Int × α)
  | [], k, v => [(k, v)]
  | p :: m, k, v => if p.1 = k then (k, v) :: m else p :: jset m k v

/-- `Map.keys()`, in insertion order. -/
def jkeys {α : Type} (m : List (Int × α)) : List Int :=
  m.map (·.1)

theorem jget_jset_self {α : Type} (m : List (Int × α)) (k : Int) (v : α) :
    jget (jset m k v) k = some v := by
  induction m with
  | nil => simp [jset, jget]
  | cons p m ih =>
    by_cases h : p.1 = k <;> simp [jset, jget, h, ih]

theorem jget_jset_ne {α : Type} (m : List (Int × α)) (k k' : Int) (v : α)
    (h : k' ≠ k) : jget (jset m k v) k' = jget m k' := by
  have hkk : ¬k = k' := fun hh => h hh.symm
  induction m with
  | nil => simp [jset, jget, hkk]
  | cons p m ih =>
    by_cases hp : p.1 = k
    · simp [jset, jget, hp, hkk]
    · by_cases hp' : p.1 = k' <;> simp [jset, jget, hp, hp', hkk, h, ih]

theorem jget_isSome_iff_mem_jkeys {α : Type} (m : List (Int × α)) (k : Int) :
    (jget m k).isSome ↔ k ∈ jkeys m := by
  induction m with
  | nil => simp [jget, jkeys]
  | cons p m ih =>
    by_cases h : p.1 = k
    · simp [jget, jkeys, h]
    · have h2 : ¬k = p.1 := fun hh => h hh.symm
      simp [jget, jkeys, h, h2, ih]

theorem jget_eq_none_of_not_mem {α : Type} (m : List (Int × α)) (k : Int)
    (h : k ∉ jkeys m) : jget m k = none := by
  cases hm : jget m k with
  | none => rfl
  | some v =>
    exact absurd ((jget_isSome_iff_mem_jkeys m k).1 (by simp [hm])) h

theorem jkeys_jset_of_mem {α : Type} (m : List (Int × α)) (k : Int) (v : α)
    (h : k ∈ jkeys m) : jkeys (jset m k v) = jkeys m := by
  induction m with
  | nil => simp [jkeys] at h
  | cons p m ih =>
    by_cases hp : p.1 = k
    · simp only [jset, if_pos hp, jkeys, List.map_cons]
      simp [hp]
    · have h' : k ∈ jkeys m := by
        simp only [jkeys, List.map_cons, List.mem_cons] at h
        rcases h with h | h
        · exact absurd h.symm hp
        · exact h
      simp only [jset, if_neg hp, jkeys, List.map_cons]
      have := ih h'
      simp only [jkeys] at this
      rw [this]

theorem jkeys_jset_of_not_mem {α : Type} (m : List (Int × α)) (k : Int) (v : α)
    (h : k ∉ jkeys m) : jkeys (jset m k v) = jkeys m ++ [k] := by
  induction m with
  | nil => simp [jset, jkeys]
  | cons p m ih =>
    have hp : ¬p.1 = k := by
      intro hh
      exact h (by simp [jkeys, hh])
    have h' : k ∉ jkeys m := by
      intro hh
      refine h ?_
      simp only [jkeys, List.map_cons, List.mem_cons]
      exact Or.inr hh
    simp only [jset, if_neg hp, jkeys, List.map_cons]
    have := ih h'
    simp only [jkeys] at this
    rw [this]
    simp

theorem jget_mem {α : Type} (m : List (Int × α)) (k : Int) (v : α)
    (h : jget m k = some v) : (k, v) ∈ m := by
  induction m with
  | nil => simp [jget] at h
  | cons p m ih =>
    by_cases hp : p.1 = k
    · obtain ⟨a, b⟩ := p
      simp only [jget, if_pos hp] at h
      simp only at hp
      subst hp
      simp only [Option.some.injEq] at h
      subst h
      exact List.mem_cons_self _ _
    · simp only [jget, if_neg hp] at h
      exact List.mem_cons_of_mem _ (ih h)

theorem jget_of_mem_nodup {α : Type} (m : List (Int × α)) (k : Int) (v : α)
    (hnd : (jkeys m).Nodup) (h : (k, v) ∈ m) : jget m k = some v := by
  induction m with
  | nil => simp at h
  | cons p m ih =>
    simp only [jkeys, List.map_cons, List.nodup_cons] at hnd
    obtain ⟨hpm, hnd2⟩ := hnd
    rcases List.mem_cons.1 h with h | h
    · rw [← h]
      simp [jget]
    · have hk : k ∈ List.map (fun x => x.1) m :=
        List.mem_map.2 ⟨(k, v), h, rfl⟩
      have hp : ¬p.1 = k := fun hh => hpm (hh ▸ hk)
      simp only [jget, if_neg hp]
      exact ih hnd2 h

/-! ### Cycle detection (`hasCircularDependency`, lines 27-67)

The DFS carries a `visited` set and a `recursionStack` set (both
modelled as lists used as sets, threaded through the recursion).  The
recursion is fuel-bounded; every recursive step pushes a previously
unseen node onto `visited`, so fuel `|keys| + total dependency
entries + 1` can never run out (and the result is discarded anyway:
see `hasCircularDependency_constant_false`). -/

/-- DFS step of `hasCircularDependency`'s inner `hasCycle`, threading
the state `(visited, recursionStack)`.  On a positive answer the
recursion stack is left uncleaned, exactly as in the source (the
early `return true` skips `recursionStack.delete`). -/
def hasCycle (g : List (Int × List Int)) :
    Nat → Int → List Int × List Int → Bool × (List Int × List Int)
  | 0, _, st => (false, st)
  | fuel + 1, nodeId, st =>
    if nodeId ∈ st.2 then (true, st)
    else if nodeId ∈ st.1 then (false, st)
    else
      let st1 := (nodeId :: st.1, nodeId :: st.2)
      let r := ((jget g nodeId).getD []).foldl
        (fun (acc : Bool × (List Int × List Int)) depId =>
          if acc.1 then acc else hasCycle g fuel depId acc.2)
        (false, st1)
      if r.1 then (true, r.2)
      else (false, (r.2.1, r.2.2.erase nodeId))

/-- Embedding of `hasCircularDependency` (lines 27-67).  The graph maps
every existing task (and the candidate, when it has an id) to its
dependency list.  The source then runs `hasCycle` from every key inside
`Array.from(graph.keys()).forEach(...)` — but the `return true` inside
that `forEach` callback only leaves the callback, never the enclosing
function, so the fold's boolean outcomes are discarded and the function
always falls through to its final `return false`. -/
def hasCircularDependency (todos : List Todo) (newId : Option Int)
    (newDeps : List Int) : Bool :=
  let g0 := todos.foldl (fun g t => jset g t.id (parseDeps t)) []
  let g := match newId with
    | some i => jset g0 i newDeps
    | none => g0
  let fuel := g.length + (g.map (fun p => p.2.length)).sum + 1
  let _ := (jkeys g).foldl (fun st k => (hasCycle g fuel k st).2) ([], [])
  false

/-- claim C1 (status: code_bug).  The specification demands that the
cycle detector answer `true` on every cyclic task set (including a
single self-dependency) and `false` on every acyclic one, and the
repository's README advertises DFS cycle detection; but in the code the
`return true` sits inside a `forEach` callback, so `hasCircularDependency`
ignores its own DFS and returns `false` on every input — in particular
on the self-dependent task set `[{id 1, dependencies "[1]"}]`. -/
theorem hasCircularDependency_constant_false :
    ∀ (todos : List Todo) (newId : Option Int) (newDeps : List Int),
      hasCircularDependency todos newId newDeps = false := by
  intro todos newId newDeps
  rfl

/-- Sanity: the discarded DFS itself does detect the self-cycle, so the
constant-false result is genuinely the `forEach` slip, not a failure of
the search. -/
example :
    (hasCycle [((1 : Int), [(1 : Int)])] 3 1 ([], [])).1 = true := by decide

/-- claim C8 (status: confirmed).  `parseDependencies` is total and
fail-open: absent input (null / undefined / empty string), a string
`JSON.parse` rejects (such as the literal `not-json`), and a string
parsing to a non-array JSON value all yield the empty dependency list,
so such a task is scheduled as if it had no dependencies. -/
theorem parseDependencies_fail_open :
    parseDependencies .absent = [] ∧
    parseDependencies .malformed = [] ∧
    ∀ v : JsonVal, v.isArr = false → parseDependencies (.parsed v) = [] := by
  refine ⟨rfl, rfl, ?_⟩
  intro v hv
  cases v <;> simp_all [parseDependencies, JsonVal.isArr]

/-- Witness for C8: instantiating the non-array case at the JSON value
`5` (the parse of the string `"5"`). -/
theorem parseDependencies_fail_open_witness :
    parseDependencies (.parsed (.num 5)) = [] :=
  parseDependencies_fail_open.2.2 (.num 5) rfl

/-- claim C9 (status: confirmed).  On a string that parses to an array,
`parseDependencies` returns exactly the integer-typed elements of that
array, in their original order; every non-number element is silently
dropped. -/
theorem parseDependencies_filters_numbers :
    ∀ elems : List JsonVal,
      parseDependencies (.parsed (.arr elems)) =
        elems.filterMap (fun v =>
          match v with
          | .num n => some n
          | _ => none) := by
  intro elems
  induction elems with
  | nil => rfl
  | cons v elems ih =>
    cases v <;>
      simp_all [parseDependencies, JsonVal.isNum, JsonVal.numOf,
        List.filter_cons, List.filterMap_cons]

example :
    parseDependencies
      (.parsed (.arr [.num 3, .str "x", .boolean true, .num 7, .null])) =
      [3, 7] := by decide

/-! ### Topological sort (`topologicalSort`, lines 70-114)

Kahn's algorithm.  `initGD` is the initialization pass (every task id
gets an empty forward-adjacency list and in-degree 0), `addEdges` the
edge pass, `kahnLoop` the work-queue loop.  The loop is fuel-bounded by
the number of in-degree entries; every iteration moves one queue
element into the result, the result stays duplicate-free inside the
key set, so that fuel provably never runs out. -/

/-- Initialization pass of `topologicalSort` (lines 75-78). -/
def initGD (todos : List Todo) : List (Int × List Int) × List (Int × Int) :=
  todos.foldl (fun gd t => (jset gd.1 t.id [], jset gd.2 t.id 0)) ([], [])

/-- One dependency of one task in the edge pass (lines 83-88): if the
dependency is a key of the graph, push the task's id onto the
dependency's forward adjacency and bump the task's in-degree; otherwise
ignore the dangling reference. -/
def edgeStep (tid : Int)
    (gd : List (Int × List Int) × List (Int × Int)) (dep : Int) :
    List (Int × List Int) × List (Int × Int) :=
  if jhas gd.1 dep then
    (jset gd.1 dep (((jget gd.1 dep).getD []) ++ [tid]),
     jset gd.2 tid (((jget gd.2 tid).getD 0) + 1))
  else gd

/-- Edge pass of `topologicalSort` (lines 81-89): for each task and each
of its parsed dependencies present in the graph, push the task onto the
dependency's forward adjacency and bump the task's in-degree. -/
def addEdges (todos : List Todo)
    (gd : List (Int × List Int) × List (Int × Int)) :
    List (Int × List Int) × List (Int × Int) :=
  todos.foldl (fun gd t => (parseDeps t).foldl (edgeStep t.id) gd) gd

/-- Graph and in-degree map of `topologicalSort`, after both passes. -/
def buildGD (todos : List Todo) :
    List (Int × List Int) × List (Int × Int) :=
  addEdges todos (initGD todos)

/-- Neighbor pass of one loop iteration (lines 104-110): decrement each
forward neighbor's in-degree, enqueueing any neighbor whose in-degree
just reached zero. -/
def processAdjGo (st : List (Int × Int) × List Int) :
    List Int → List (Int × Int) × List Int
  | [] => st
  | n :: ns =>
    let deg := ((jget st.1 n).getD 0) - 1
    processAdjGo (jset st.1 n deg, if deg = 0 then st.2 ++ [n] else st.2) ns

/-- Neighbor pass started from an empty enqueue accumulator. -/
def processAdj (ns : List Int) (d : List (Int × Int)) :
    List (Int × Int) × List Int :=
  processAdjGo (d, []) ns

/-- Work-queue loop of Kahn's algorithm (lines 100-111). -/
def kahnLoop (g : List (Int × List Int)) :
    Nat → List (Int × Int) → List Int → List Int → List Int
  | _, _, [], r => r
  | 0, _, _ :: _, r => r
  | fuel + 1, d, cur :: rest, r =>
    let pa := processAdj ((jget g cur).getD []) d
    kahnLoop g fuel pa.1 (rest ++ pa.2) (r ++ [cur])

/-- Embedding of `topologicalSort` (lines 70-114): build the graph and
in-degree map, seed the queue with the zero-in-degree ids in map
iteration (= insertion = collection) order, and run the loop. -/
def topologicalSort (todos : List Todo) : List Int :=
  let gd := buildGD todos
  let q := (gd.2.filter (fun p => p.2 = 0)).map (fun p => p.1)
  kahnLoop gd.1 gd.2.length gd.2 q []

/-- Convenience constructor for concrete test tasks. -/
def mkTodo (i : Int) (df : DepsField) (dur : Option Int) : Todo :=
  { id := i, title := "", createdAt := 0, dueDate := none,
    imageUrl := none, dependencies := df, duration := dur }

/-- A dependency field storing the JSON array of the given ids. -/
def depsArr (l : List Int) : DepsField :=
  .parsed (.arr (l.map .num))

example :
    topologicalSort [mkTodo 1 (depsArr [2]) none, mkTodo 2 .absent none] =
      [2, 1] := by decide

example :
    topologicalSort
      [mkTodo 1 .absent none, mkTodo 2 (depsArr [1]) none,
       mkTodo 3 (depsArr [1, 2]) none] = [1, 2, 3] := by decide

/-- The mutual two-task cycle of the specification's Scenario B. -/
def cycTwo : List Todo :=
  [mkTodo 1 (depsArr [2]) none, mkTodo 2 (depsArr [1]) none]

example : topologicalSort cycTwo = [] := by decide

/-! ### The dependency relation and acyclicity -/

/-- Parsed dependency list of the task carrying a given id (empty when
no such task exists). -/
def depsOfId (todos : List Todo) (k : Int) : List Int :=
  match findTodo todos k with
  | some t => parseDeps t
  | none => []

/-- `DepRel todos d v` holds when the collection contains a task with
id `v` whose parsed dependency list mentions `d`, and `d` itself is the
id of a task of the collection — exactly the edges `topologicalSort`
builds (a dependency on an id not in the collection contributes no
edge). -/
def DepRel (todos : List Todo) (d v : Int) : Prop :=
  v ∈ idsOf todos ∧ d ∈ idsOf todos ∧ d ∈ depsOfId todos v

/-- A collection is acyclic when every dependency chain terminates:
every node is accessible along `DepRel`. -/
def Acyclic (todos : List Todo) : Prop :=
  ∀ v : Int, Acc (DepRel todos) v

/-! ### Facts about the built graph and in-degree map -/

/-- Forward adjacency of a node (empty when absent). -/
def adjOf (g : List (Int × List Int)) (s : Int) : List Int :=
  (jget g s).getD []

/-- Number of in-edges of `k`: occurrences of `k` across all adjacency
rows of `g`. -/
def totalIn (g : List (Int × List Int)) (k : Int) : Nat :=
  (g.map (fun p => p.2.count k)).sum

/-- Edge endpoints already consumed by the processed prefix `r` of the
loop: occurrences of `k` in the adjacency rows of members of `r`. -/
def consumed (g : List (Int × List Int)) (r : List Int) (k : Int) : Nat :=
  (r.map (fun s => (adjOf g s).count k)).sum

theorem totalIn_cons (p : Int × List Int) (g : List (Int × List Int)) (k : Int) :
    totalIn (p :: g) k = p.2.count k + totalIn g k := by
  simp [totalIn]

theorem consumed_append (g : List (Int × List Int)) (r1 r2 : List Int) (k : Int) :
    consumed g (r1 ++ r2) k = consumed g r1 k + consumed g r2 k := by
  simp [consumed]

theorem consumed_singleton (g : List (Int × List Int)) (s k : Int) :
    consumed g [s] k = (adjOf g s).count k := by
  simp [consumed]

theorem jset_eq_append_of_not_mem {α : Type} (m : List (Int × α)) (k : Int)
    (v : α) (h : k ∉ jkeys m) : jset m k v = m ++ [(k, v)] := by
  induction m with
  | nil => simp [jset]
  | cons p m ih =>
    have hp : ¬p.1 = k := fun hh => h (by simp [jkeys, hh])
    have h' : k ∉ jkeys m := fun hh => h (by simp [jkeys] at hh ⊢; exact Or.inr hh)
    simp [jset, hp, ih h']

theorem mem_jset {α : Type} (m : List (Int × α)) (k : Int) (v : α)
    (p : Int × α) (h : p ∈ jset m k v) : p = (k, v) ∨ p ∈ m := by
  induction m with
  | nil => simpa [jset] using h
  | cons q m ih =>
    by_cases hq : q.1 = k
    · simp only [jset, if_pos hq, List.mem_cons] at h
      rcases h with h | h
      · exact Or.inl h
      · exact Or.inr (List.mem_cons_of_mem _ h)
    · simp only [jset, if_neg hq, List.mem_cons] at h
      rcases h with h | h
      · exact Or.inr (h ▸ List.mem_cons_self _ _)
      · rcases ih h with h | h
        · exact Or.inl h
        · exact Or.inr (List.mem_cons_of_mem _ h)

theorem jget_map_const {α β : Type} (l : List β) (f : β → Int) (c : α) (k : Int) :
    jget (l.map (fun a => (f a, c))) k =
      if k ∈ l.map f then some c else none := by
  induction l with
  | nil => simp [jget]
  | cons a l ih =>
    by_cases h : f a = k
    · simp [jget, h]
    · have h2 : ¬k = f a := fun hh => h hh.symm
      simp [jget, h, h2, ih]

theorem jget_map_id_const {α : Type} (todos : List Todo) (c : α) (k : Int) :
    jget (todos.map (fun t => (t.id, c))) k =
      if k ∈ idsOf todos then some c else none := by
  induction todos with
  | nil => simp [jget, idsOf]
  | cons t todos ih =>
    by_cases h : t.id = k
    · simp [jget, idsOf, h]
    · have h2 : ¬k = t.id := fun hh => h hh.symm
      simp only [List.map_cons, jget, if_neg h, ih, idsOf, List.mem_cons]
      simp [h2]

theorem totalIn_jset_push (g : List (Int × List Int)) (s x k : Int)
    (adj : List Int) (h : jget g s = some adj) :
    totalIn (jset g s (adj ++ [x])) k = totalIn g k + [x].count k := by
  induction g with
  | nil => simp [jget] at h
  | cons p g ih =>
    by_cases hp : p.1 = s
    · simp only [jget, if_pos hp, Option.some.injEq] at h
      subst h
      simp only [jset, if_pos hp, totalIn_cons, List.count_append]
      omega
    · simp only [jget, if_neg hp] at h
      simp only [jset, if_neg hp, totalIn_cons, ih h]
      omega

theorem findTodo_some_of_mem_ids (todos : List Todo) (x : Int)
    (hx : x ∈ idsOf todos) :
    ∃ t, findTodo todos x = some t ∧ t ∈ todos ∧ t.id = x := by
  induction todos with
  | nil => simp [idsOf] at hx
  | cons u todos ih =>
    by_cases hu : u.id = x
    · exact ⟨u, by simp [findTodo, List.find?, hu], List.mem_cons_self _ _, hu⟩
    · have hx' : x ∈ idsOf todos := by
        simp only [idsOf, List.map_cons, List.mem_cons] at hx
        rcases hx with hx | hx
        · exact absurd hx.symm hu
        · exact hx
      obtain ⟨t, h1, h2, h3⟩ := ih hx'
      refine ⟨t, ?_, List.mem_cons_of_mem _ h2, h3⟩
      simpa [findTodo, List.find?, hu] using h1

theorem findTodo_eq_of_mem (todos : List Todo) (hnd : (idsOf todos).Nodup)
    (t : Todo) (ht : t ∈ todos) : findTodo todos t.id = some t := by
  induction todos with
  | nil => simp at ht
  | cons u todos ih =>
    simp only [idsOf, List.map_cons, List.nodup_cons] at hnd
    rcases List.mem_cons.1 ht with h | h
    · subst h
      simp [findTodo, List.find?]
    · have hu : ¬u.id = t.id := by
        intro hh
        exact hnd.1 (hh ▸ List.mem_map.2 ⟨t, h, rfl⟩)
      have := ih hnd.2 h
      simpa [findTodo, List.find?, hu] using this

theorem initGD_go (todos : List Todo) :
    ∀ (g : List (Int × List Int)) (d : List (Int × Int)),
    (idsOf todos).Nodup →
    (∀ t ∈ todos, t.id ∉ jkeys g) → (∀ t ∈ todos, t.id ∉ jkeys d) →
    todos.foldl (fun gd t => (jset gd.1 t.id [], jset gd.2 t.id 0)) (g, d) =
      (g ++ todos.map (fun t => (t.id, ([] : List Int))),
       d ++ todos.map (fun t => (t.id, (0 : Int)))) := by
  induction todos with
  | nil => intro g d _ _ _; simp
  | cons t todos ih =>
    intro g d hnd hg hd
    simp only [idsOf, List.map_cons, List.nodup_cons] at hnd
    have hgt : t.id ∉ jkeys g := hg t (List.mem_cons_self _ _)
    have hdt : t.id ∉ jkeys d := hd t (List.mem_cons_self _ _)
    simp only [List.foldl_cons, jset_eq_append_of_not_mem g t.id [] hgt,
      jset_eq_append_of_not_mem d t.id 0 hdt]
    have hg' : ∀ u ∈ todos, u.id ∉ jkeys (g ++ [(t.id, ([] : List Int))]) := by
      intro u hu hmem
      simp only [jkeys, List.map_append, List.mem_append, List.map_cons,
        List.mem_cons] at hmem
      rcases hmem with hmem | hmem
      · exact hg u (List.mem_cons_of_mem _ hu) hmem
      · simp only [List.map_nil, List.mem_singleton] at hmem
        rcases hmem with hmem | hmem
        · exact hnd.1 (hmem ▸ List.mem_map.2 ⟨u, hu, rfl⟩)
        · simp at hmem
    have hd' : ∀ u ∈ todos, u.id ∉ jkeys (d ++ [(t.id, (0 : Int))]) := by
      intro u hu hmem
      simp only [jkeys, List.map_append, List.mem_append, List.map_cons,
        List.mem_cons] at hmem
      rcases hmem with hmem | hmem
      · exact hd u (List.mem_cons_of_mem _ hu) hmem
      · simp only [List.map_nil, List.mem_singleton] at hmem
        rcases hmem with hmem | hmem
        · exact hnd.1 (hmem ▸ List.mem_map.2 ⟨u, hu, rfl⟩)
        · simp at hmem
    rw [ih _ _ hnd.2 hg' hd']
    simp

theorem initGD_spec (todos : List Todo) (hnd : (idsOf todos).Nodup) :
    initGD todos =
      (todos.map (fun t => (t.id, ([] : List Int))),
       todos.map (fun t => (t.id, (0 : Int)))) := by
  have := initGD_go todos [] [] hnd (by simp [jkeys]) (by simp [jkeys])
  simpa [initGD] using this

theorem addEdges_dep_fold (K0 : List Int) (tid : Int) (htid : tid ∈ K0) :
    ∀ (l : List Int) (g : List (Int × List Int)) (d : List (Int × Int)),
    jkeys g = K0 → jkeys d = K0 →
    (∀ k ∈ K0, jget d k = some ((totalIn g k : Int))) →
    (∀ p ∈ g, ∀ x ∈ p.2, x ∈ K0) →
    ∃ g' d',
      l.foldl (edgeStep tid) (g, d) = (g', d') ∧
      jkeys g' = K0 ∧ jkeys d' = K0 ∧
      (∀ k ∈ K0, jget d' k = some ((totalIn g' k : Int))) ∧
      (∀ p ∈ g', ∀ x ∈ p.2, x ∈ K0) ∧
      (∀ s x : Int,
        x ∈ adjOf g' s ↔ (x ∈ adjOf g s ∨ (x = tid ∧ s ∈ l ∧ s ∈ K0))) := by
  intro l
  induction l with
  | nil =>
    intro g d hkg hkd hdeg htgt
    exact ⟨g, d, rfl, hkg, hkd, hdeg, htgt, by simp⟩
  | cons dep l ih =>
    intro g d hkg hkd hdeg htgt
    by_cases hh : jhas g dep
    · have hdepK : dep ∈ K0 := by
        rw [← hkg]
        exact (jget_isSome_iff_mem_jkeys g dep).1 (by simpa [jhas] using hh)
      obtain ⟨adj, hadj⟩ := Option.isSome_iff_exists.1 (by simpa [jhas] using hh)
      have hdtid : jget d tid = some ((totalIn g tid : Int)) := hdeg tid htid
      have hstep : edgeStep tid (g, d) dep =
          (jset g dep (adj ++ [tid]),
           jset d tid ((totalIn g tid : Int) + 1)) := by
        simp [edgeStep, hh, hadj, hdtid]
      have hkg1 : jkeys (jset g dep (adj ++ [tid])) = K0 := by
        rw [jkeys_jset_of_mem g dep _ (hkg ▸ hdepK), hkg]
      have hkd1 : jkeys (jset d tid ((totalIn g tid : Int) + 1)) = K0 := by
        rw [jkeys_jset_of_mem d tid _ (hkd ▸ htid), hkd]
      have hdeg1 : ∀ k ∈ K0,
          jget (jset d tid ((totalIn g tid : Int) + 1)) k =
            some ((totalIn (jset g dep (adj ++ [tid])) k : Int)) := by
        intro k hk
        have htot := totalIn_jset_push g dep tid k adj hadj
        by_cases hkt : k = tid
        · subst hkt
          rw [jget_jset_self, htot]
          simp
        · rw [jget_jset_ne d tid k _ hkt, hdeg k hk, htot]
          have : [tid].count k = 0 := by
            simp [List.count_singleton']
            exact fun hh2 => hkt hh2.symm
          rw [this]
          simp
      have htgt1 : ∀ p ∈ jset g dep (adj ++ [tid]), ∀ x ∈ p.2, x ∈ K0 := by
        intro p hp x hx
        rcases mem_jset g dep _ p hp with hp2 | hp2
        · subst hp2
          simp only [List.mem_append, List.mem_singleton] at hx
          rcases hx with hx | hx
          · exact htgt (dep, adj) (jget_mem g dep adj hadj) x hx
          · exact hx ▸ htid
        · exact htgt p hp2 x hx
      obtain ⟨g', d', foldEq, hkg', hkd', hdeg', htgt', char'⟩ :=
        ih _ _ hkg1 hkd1 hdeg1 htgt1
      refine ⟨g', d', ?_, hkg', hkd', hdeg', htgt', ?_⟩
      · rw [List.foldl_cons, hstep]
        exact foldEq
      · intro s x
        rw [char' s x]
        by_cases hsd : s = dep
        · subst hsd
          have h1 : adjOf (jset g s (adj ++ [tid])) s = adj ++ [tid] := by
            simp [adjOf, jget_jset_self]
          have h2 : adjOf g s = adj := by
            simp [adjOf, hadj]
          rw [h1, h2]
          constructor
          · rintro (hx | ⟨hx1, hx2, hx3⟩)
            · rcases List.mem_append.1 hx with hx | hx
              · exact Or.inl hx
              · have hxt : x = tid := by simpa using hx
                exact Or.inr ⟨hxt, List.mem_cons_self _ _, hdepK⟩
            · exact Or.inr ⟨hx1, List.mem_cons_of_mem _ hx2, hx3⟩
          · rintro (hx | ⟨hx1, _, _⟩)
            · exact Or.inl (List.mem_append.2 (Or.inl hx))
            · exact Or.inl (List.mem_append.2 (Or.inr (by simpa using hx1)))
        · have h1 : adjOf (jset g dep (adj ++ [tid])) s = adjOf g s := by
            simp [adjOf, jget_jset_ne g dep s _ hsd]
          rw [h1]
          simp only [List.mem_cons]
          constructor
          · rintro (hx | ⟨hx1, hx2, hx3⟩)
            · exact Or.inl hx
            · exact Or.inr ⟨hx1, Or.inr hx2, hx3⟩
          · rintro (hx | ⟨hx1, hx2 | hx2, hx3⟩)
            · exact Or.inl hx
            · exact absurd hx2 hsd
            · exact Or.inr ⟨hx1, hx2, hx3⟩
    · have hdepK : dep ∉ K0 := by
        rw [← hkg]
        intro hmem
        exact hh (by
          simpa [jhas] using (jget_isSome_iff_mem_jkeys g dep).2 hmem)
      have hstep : edgeStep tid (g, d) dep = (g, d) := by
        simp [edgeStep, hh]
      obtain ⟨g', d', foldEq, hkg', hkd', hdeg', htgt', char'⟩ :=
        ih _ _ hkg hkd hdeg htgt
      refine ⟨g', d', ?_, hkg', hkd', hdeg', htgt', ?_⟩
      · rw [List.foldl_cons, hstep]
        exact foldEq
      · intro s x
        rw [char' s x]
        simp only [List.mem_cons]
        constructor
        · rintro (hx | ⟨hx1, hx2, hx3⟩)
          · exact Or.inl hx
          · exact Or.inr ⟨hx1, Or.inr hx2, hx3⟩
        · rintro (hx | ⟨hx1, hx2 | hx2, hx3⟩)
          · exact Or.inl hx
          · exact absurd (hx2 ▸ hx3) hdepK
          · exact Or.inr ⟨hx1, hx2, hx3⟩

theorem addEdges_fold (K0 : List Int) :
    ∀ (todos : List Todo) (g : List (Int × List Int)) (d : List (Int × Int)),
    (∀ t ∈ todos, t.id ∈ K0) →
    jkeys g = K0 → jkeys d = K0 →
    (∀ k ∈ K0, jget d k = some ((totalIn g k : Int))) →
    (∀ p ∈ g, ∀ x ∈ p.2, x ∈ K0) →
    ∃ g' d',
      todos.foldl (fun gd t => (parseDeps t).foldl (edgeStep t.id) gd) (g, d) =
        (g', d') ∧
      jkeys g' = K0 ∧ jkeys d' = K0 ∧
      (∀ k ∈ K0, jget d' k = some ((totalIn g' k : Int))) ∧
      (∀ p ∈ g', ∀ x ∈ p.2, x ∈ K0) ∧
      (∀ s x : Int, x ∈ adjOf g' s ↔
        (x ∈ adjOf g s ∨ (s ∈ K0 ∧ ∃ t ∈ todos, t.id = x ∧ s ∈ parseDeps t))) := by
  intro todos
  induction todos with
  | nil =>
    intro g d _ hkg hkd hdeg htgt
    exact ⟨g, d, rfl, hkg, hkd, hdeg, htgt, by simp⟩
  | cons t todos ih =>
    intro g d hids hkg hkd hdeg htgt
    have htK : t.id ∈ K0 := hids t (List.mem_cons_self _ _)
    obtain ⟨g1, d1, foldEq1, hkg1, hkd1, hdeg1, htgt1, char1⟩ :=
      addEdges_dep_fold K0 t.id htK (parseDeps t) g d hkg hkd hdeg htgt
    obtain ⟨g', d', foldEq2, hkg', hkd', hdeg', htgt', char2⟩ :=
      ih g1 d1 (fun u hu => hids u (List.mem_cons_of_mem _ hu)) hkg1 hkd1
        hdeg1 htgt1
    refine ⟨g', d', ?_, hkg', hkd', hdeg', htgt', ?_⟩
    · rw [List.foldl_cons, foldEq1]
      exact foldEq2
    · intro s x
      rw [char2 s x, char1 s x]
      constructor
      · rintro ((hx | ⟨hx1, hx2, hx3⟩) | ⟨hx1, u, hu, hx2, hx3⟩)
        · exact Or.inl hx
        · exact Or.inr ⟨hx3, t, List.mem_cons_self _ _, hx1.symm, hx2⟩
        · exact Or.inr ⟨hx1, u, List.mem_cons_of_mem _ hu, hx2, hx3⟩
      · rintro (hx | ⟨hx1, u, hu, hx2, hx3⟩)
        · exact Or.inl (Or.inl hx)
        · rcases List.mem_cons.1 hu with hu | hu
          · exact Or.inl (Or.inr ⟨hu ▸ hx2.symm, hu ▸ hx3, hx1⟩)
          · exact Or.inr ⟨hx1, u, hu, hx2, hx3⟩

/-- Combined specification of the graph construction of
`topologicalSort` on a collection with unique ids: keys are exactly the
collection's ids, the in-degree map agrees with the number of in-edges
of the built adjacency, adjacency targets are ids, and adjacency
membership is exactly the dependency relation. -/
theorem buildGD_spec (todos : List Todo) (hnd : (idsOf todos).Nodup) :
    ∃ g d, buildGD todos = (g, d) ∧
      jkeys g = idsOf todos ∧ jkeys d = idsOf todos ∧
      (∀ k ∈ idsOf todos, jget d k = some ((totalIn g k : Int))) ∧
      (∀ p ∈ g, ∀ x ∈ p.2, x ∈ idsOf todos) ∧
      (∀ s x : Int, x ∈ adjOf g s ↔ DepRel todos s x) := by
  have hinit := initGD_spec todos hnd
  have hkg0 : jkeys (todos.map (fun t => (t.id, ([] : List Int)))) =
      idsOf todos := by
    simp [jkeys, idsOf, List.map_map]
  have hkd0 : jkeys (todos.map (fun t => (t.id, (0 : Int)))) = idsOf todos := by
    simp [jkeys, idsOf, List.map_map]
  have hadj0 : ∀ s : Int,
      adjOf (todos.map (fun t => (t.id, ([] : List Int)))) s = [] := by
    intro s
    unfold adjOf
    rw [jget_map_id_const todos ([] : List Int) s]
    by_cases h : s ∈ idsOf todos <;> simp [h]
  have htot0 : ∀ k : Int,
      totalIn (todos.map (fun t => (t.id, ([] : List Int)))) k = 0 := by
    intro k
    rw [totalIn, List.map_map]
    apply List.sum_eq_zero
    intro x hx
    obtain ⟨t, _, ht⟩ := List.mem_map.1 hx
    rw [← ht]
    simp
  have hdeg0 : ∀ k ∈ idsOf todos,
      jget (todos.map (fun t => (t.id, (0 : Int)))) k =
        some ((totalIn (todos.map (fun t => (t.id, ([] : List Int)))) k : Int)) := by
    intro k hk
    rw [htot0 k, jget_map_id_const todos (0 : Int) k, if_pos hk]
    simp
  have htgt0 : ∀ p ∈ todos.map (fun t => (t.id, ([] : List Int))),
      ∀ x ∈ p.2, x ∈ idsOf todos := by
    intro p hp x hx
    obtain ⟨t, _, ht2⟩ := List.mem_map.1 hp
    rw [← ht2] at hx
    simp at hx
  obtain ⟨g, d, foldEq, hkg, hkd, hdeg, htgt, char⟩ :=
    addEdges_fold (idsOf todos) todos
      (todos.map (fun t => (t.id, ([] : List Int))))
      (todos.map (fun t => (t.id, (0 : Int))))
      (fun t ht => List.mem_map.2 ⟨t, ht, rfl⟩)
      hkg0 hkd0 hdeg0 htgt0
  refine ⟨g, d, ?_, hkg, hkd, hdeg, htgt, ?_⟩
  · rw [buildGD, hinit, addEdges]
    exact foldEq
  · intro s x
    rw [char s x, hadj0 s]
    simp only [List.not_mem_nil, false_or]
    unfold DepRel depsOfId
    constructor
    · rintro ⟨hs, t, ht, hx, hdep⟩
      have hft : findTodo todos x = some t := by
        rw [← hx]
        exact findTodo_eq_of_mem todos hnd t ht
      rw [hft]
      exact ⟨List.mem_map.2 ⟨t, ht, hx⟩, hs, hdep⟩
    · rintro ⟨hx, hs, hdep⟩
      obtain ⟨t, ht1, ht2, ht3⟩ := findTodo_some_of_mem_ids todos x hx
      rw [ht1] at hdep
      exact ⟨hs, t, ht2, ht3, hdep⟩

theorem totalIn_eq_sum_keys (g : List (Int × List Int))
    (hg : (jkeys g).Nodup) (k : Int) :
    totalIn g k = ((jkeys g).map (fun s => (adjOf g s).count k)).sum := by
  unfold totalIn jkeys
  rw [List.map_map]
  apply congrArg List.sum
  apply List.map_congr_left
  intro p hp
  have : jget g p.1 = some p.2 := jget_of_mem_nodup g p.1 p.2 hg (by simpa using hp)
  simp [Function.comp, adjOf, this]

theorem sum_count_toFinset (g : List (Int × List Int)) (l : List Int)
    (hl : l.Nodup) (k : Int) :
    (l.map (fun s => (adjOf g s).count k)).sum =
      ∑ s ∈ l.toFinset, (adjOf g s).count k := by
  rw [List.sum_toFinset _ hl]

theorem consumed_le_totalIn (g : List (Int × List Int))
    (hg : (jkeys g).Nodup) (r : List Int) (hr : r.Nodup)
    (hsub : ∀ x ∈ r, x ∈ jkeys g) (k : Int) :
    consumed g r k ≤ totalIn g k := by
  rw [consumed, sum_count_toFinset g r hr k,
    totalIn_eq_sum_keys g hg k, sum_count_toFinset g (jkeys g) hg k]
  apply Finset.sum_le_sum_of_subset
  intro x hx
  exact List.mem_toFinset.2 (hsub x (List.mem_toFinset.1 hx))

theorem consumed_eq_totalIn_iff (g : List (Int × List Int))
    (hg : (jkeys g).Nodup) (r : List Int) (hr : r.Nodup)
    (hsub : ∀ x ∈ r, x ∈ jkeys g) (k : Int) :
    consumed g r k = totalIn g k ↔
      ∀ s ∈ jkeys g, s ∉ r → (adjOf g s).count k = 0 := by
  rw [consumed, sum_count_toFinset g r hr k,
    totalIn_eq_sum_keys g hg k, sum_count_toFinset g (jkeys g) hg k]
  have hsubF : r.toFinset ⊆ (jkeys g).toFinset := by
    intro x hx
    exact List.mem_toFinset.2 (hsub x (List.mem_toFinset.1 hx))
  rw [← Finset.sum_sdiff hsubF]
  constructor
  · intro h s hs hsr
    have h0 : ∑ x ∈ (jkeys g).toFinset \ r.toFinset,
        (adjOf g x).count k = 0 := by omega
    exact Finset.sum_eq_zero_iff.1 h0 s
      (Finset.mem_sdiff.2 ⟨List.mem_toFinset.2 hs,
        fun hc => hsr (List.mem_toFinset.1 hc)⟩)
  · intro h
    have h0 : ∑ x ∈ (jkeys g).toFinset \ r.toFinset,
        (adjOf g x).count k = 0 := by
      apply Finset.sum_eq_zero
      intro s hs
      obtain ⟨hs1, hs2⟩ := Finset.mem_sdiff.1 hs
      exact h s (List.mem_toFinset.1 hs1) (fun hc => hs2 (List.mem_toFinset.2 hc))
    omega

theorem processAdjGo_append (ns : List Int) :
    ∀ (d : List (Int × Int)) (q : List Int),
    processAdjGo (d, q) ns =
      ((processAdjGo (d, []) ns).1, q ++ (processAdjGo (d, []) ns).2) := by
  induction ns with
  | nil => intro d q; simp [processAdjGo]
  | cons n ns ih =>
    intro d q
    simp only [processAdjGo]
    by_cases h : ((jget d n).getD 0) - 1 = 0
    · rw [if_pos h, if_pos h, ih _ (q ++ [n]), ih _ ([] ++ [n])]
      simp
    · rw [if_neg h, if_neg h, ih _ q]

theorem processAdj_spec (ns : List Int) :
    ∀ (d : List (Int × Int)),
    (∀ n ∈ ns, n ∈ jkeys d) →
    (∀ k : Int, ((ns.count k : Int)) ≤ (jget d k).getD 0) →
    jkeys (processAdj ns d).1 = jkeys d ∧
    (∀ k ∈ jkeys d, jget (processAdj ns d).1 k =
       some ((jget d k).getD 0 - (ns.count k : Int))) ∧
    (∀ k : Int, k ∈ (processAdj ns d).2 ↔
       (k ∈ ns ∧ (jget d k).getD 0 - (ns.count k : Int) = 0)) ∧
    (processAdj ns d).2.Nodup := by
  induction ns with
  | nil =>
    intro d _ _
    refine ⟨rfl, ?_, by simp [processAdj, processAdjGo], by simp [processAdj, processAdjGo]⟩
    intro k hk
    obtain ⟨v, hv⟩ := Option.isSome_iff_exists.1
      ((jget_isSome_iff_mem_jkeys d k).2 hk)
    simp [processAdj, processAdjGo, hv]
  | cons n ns ih =>
    intro d h1 h2
    have hnK : n ∈ jkeys d := h1 n (List.mem_cons_self _ _)
    obtain ⟨a, ha⟩ := Option.isSome_iff_exists.1
      ((jget_isSome_iff_mem_jkeys d n).2 hnK)
    have hstep : processAdj (n :: ns) d =
        ((processAdj ns (jset d n (a - 1))).1,
         (if a - 1 = 0 then [n] else []) ++ (processAdj ns (jset d n (a - 1))).2) := by
      show processAdjGo (d, []) (n :: ns) = _
      simp only [processAdjGo, ha, Option.getD_some]
      by_cases h : a - 1 = 0
      · rw [if_pos h, if_pos h,
          processAdjGo_append ns (jset d n (a - 1)) ([] ++ [n])]
        rfl
      · rw [if_neg h, if_neg h]
        rfl
    have hkeys1 : jkeys (jset d n (a - 1)) = jkeys d :=
      jkeys_jset_of_mem d n _ hnK
    have h1' : ∀ m ∈ ns, m ∈ jkeys (jset d n (a - 1)) := by
      intro m hm
      rw [hkeys1]
      exact h1 m (List.mem_cons_of_mem _ hm)
    have h2' : ∀ k : Int,
        ((ns.count k : Int)) ≤ (jget (jset d n (a - 1)) k).getD 0 := by
      intro k
      by_cases hkn : k = n
      · subst hkn
        rw [jget_jset_self]
        have := h2 k
        rw [ha] at this
        simp only [Option.getD_some] at this ⊢
        have hc : (k :: ns).count k = ns.count k + 1 := by
          simp [List.count_cons_self]
        rw [hc] at this
        push_cast at this ⊢
        omega
      · rw [jget_jset_ne d n k _ hkn]
        have := h2 k
        have hc : (n :: ns).count k = ns.count k := by
          simp [List.count_cons]
          intro hh
          exact absurd hh.symm hkn
        rw [hc] at this
        exact this
    obtain ⟨ihk, ihv, ihm, ihnd⟩ := ih (jset d n (a - 1)) h1' h2'
    have hvn : ∀ k : Int, (jget (jset d n (a - 1)) k).getD 0 =
        (jget d k).getD 0 - (if n = k then 1 else 0) := by
      intro k
      by_cases hkn : k = n
      · subst hkn
        rw [jget_jset_self, ha]
        simp
      · rw [jget_jset_ne d n k _ hkn, if_neg (fun hh => hkn hh.symm)]
        simp
    have hcount : ∀ k : Int,
        ((n :: ns).count k : Int) = (ns.count k : Int) + (if n = k then 1 else 0) := by
      intro k
      by_cases h : n = k
      · subst h
        simp [List.count_cons]
      · simp [List.count_cons, h]
    refine ⟨?_, ?_, ?_, ?_⟩
    · rw [hstep]
      rw [ihk, hkeys1]
    · intro k hk
      rw [hstep]
      simp only
      rw [ihv k (by rw [hkeys1]; exact hk), hvn k, hcount k]
      congr 1
      ring
    · intro k
      rw [hstep]
      simp only [List.mem_append]
      rw [ihm k, hvn k, hcount k]
      by_cases hkn : k = n
      · subst hkn
        have hif : (if k = k then (1 : Int) else 0) = 1 := if_pos rfl
        rw [hif, ha]
        simp only [Option.getD_some]
        have hcz : (ns.count k : Int) ≤ a - 1 := by
          have := h2' k
          rw [jget_jset_self] at this
          simpa using this
        constructor
        · rintro (hq | ⟨hmem, heq⟩)
          · have hq0 : a - 1 = 0 := by
              by_cases hz : a - 1 = 0
              · exact hz
              · simp [hz] at hq
            exact ⟨List.mem_cons_self _ _, by omega⟩
          · exact ⟨List.mem_cons_self _ _, by omega⟩
        · rintro ⟨_, heq⟩
          by_cases hmem : k ∈ ns
          · exact Or.inr ⟨hmem, by omega⟩
          · have hc0 : ns.count k = 0 := List.count_eq_zero.2 hmem
            rw [hc0] at heq hcz
            left
            have hz : a - 1 = 0 := by
              push_cast at heq
              omega
            simp [hz]
      · have hnk : ¬n = k := fun hh => hkn hh.symm
        have hif2 : (if n = k then (1 : Int) else 0) = 0 := if_neg hnk
        rw [hif2]
        have hq : k ∉ (if a - 1 = 0 then [n] else []) := by
          by_cases hz : a - 1 = 0 <;> simp [hz, hkn]
        constructor
        · rintro (hmem | ⟨hmem, heq⟩)
          · exact absurd hmem hq
          · exact ⟨List.mem_cons_of_mem _ hmem, by omega⟩
        · rintro ⟨hmem, heq⟩
          rcases List.mem_cons.1 hmem with hmem | hmem
          · exact absurd hmem hkn
          · exact Or.inr ⟨hmem, by omega⟩
    · rw [hstep]
      simp only
      by_cases hz : a - 1 = 0
      · rw [if_pos hz]
        have hnmem : n ∉ (processAdj ns (jset d n (a - 1))).2 := by
          rw [ihm n]
          rintro ⟨hmem, heq⟩
          rw [jget_jset_self] at heq
          simp only [Option.getD_some] at heq
          have hc0 : ns.count n = 0 := by omega
          exact (List.count_eq_zero.1 hc0) hmem
        simp only [List.singleton_append, List.nodup_cons]
        exact ⟨hnmem, ihnd⟩
      · rw [if_neg hz]
        simpa using ihnd

theorem get_append_length {α : Type} (l : List α) (a : α)
    (h : l.length < (l ++ [a]).length) :
    (l ++ [a]).get ⟨l.length, h⟩ = a := by
  induction l with
  | nil => rfl
  | cons b l ih => exact ih (by simp)

/-- Prefix-closedness of a processed list `r` with respect to the
forward adjacency `g`: whenever the node at position `i` of `r` is a
forward neighbor of a key `s` (i.e. depends on `s`), `s` already occurs
strictly before position `i`. -/
def Pord (g : List (Int × List Int)) (r : List Int) : Prop :=
  ∀ (i : Nat) (hi : i < r.length), ∀ s ∈ jkeys g,
    r.get ⟨i, hi⟩ ∈ adjOf g s → s ∈ r.take i

theorem consumed_concat (g : List (Int × List Int)) (r : List Int)
    (cur k : Int) :
    consumed g (r ++ [cur]) k = consumed g r k + (adjOf g cur).count k := by
  rw [consumed_append, consumed_singleton]

/-- Main invariant theorem for the work-queue loop: starting from a
consistent state (in-degree = in-edges minus edges consumed by the
processed prefix, queue = exactly the fully consumed unprocessed keys,
no duplicates, prefix-closed order) with enough fuel, the loop returns
an extension of `r` that is duplicate-free, made of keys, prefix-closed,
and contains a key exactly when all its in-edges come from it. -/
theorem kahnLoop_spec (g : List (Int × List Int))
    (hgnd : (jkeys g).Nodup)
    (htgt : ∀ p ∈ g, ∀ x ∈ p.2, x ∈ jkeys g) :
    ∀ (fuel : Nat) (d : List (Int × Int)) (q r : List Int),
    jkeys d = jkeys g →
    (r ++ q).Nodup →
    (∀ x ∈ r ++ q, x ∈ jkeys g) →
    (∀ k ∈ jkeys g, jget d k =
       some ((totalIn g k : Int) - (consumed g r k : Int))) →
    (∀ k ∈ jkeys g, (k ∈ r ++ q ↔ consumed g r k = totalIn g k)) →
    Pord g r →
    (jkeys g).length ≤ fuel + r.length →
    ∃ t, kahnLoop g fuel d q r = r ++ t ∧
      (r ++ t).Nodup ∧ (∀ x ∈ r ++ t, x ∈ jkeys g) ∧ Pord g (r ++ t) ∧
      (∀ k ∈ jkeys g, (k ∈ r ++ t ↔ consumed g (r ++ t) k = totalIn g k)) := by
  intro fuel
  induction fuel with
  | zero =>
    intro d q r hkd hnd hsub hdeg hiff hpord hfuel
    have hq : q = [] := by
      have hlen : (r ++ q).length ≤ (jkeys g).length :=
        (List.Nodup.subperm hnd (fun x hx => hsub x hx)).length_le
      rw [List.length_append] at hlen
      cases q with
      | nil => rfl
      | cons a q => simp at hlen; omega
    subst hq
    exact ⟨[], by simp [kahnLoop], by simpa using hnd, by simpa using hsub,
      by simpa using hpord, by simpa using hiff⟩
  | succ fuel ih =>
    intro d q r hkd hnd hsub hdeg hiff hpord hfuel
    cases q with
    | nil =>
      exact ⟨[], by simp [kahnLoop], by simpa using hnd, by simpa using hsub,
        by simpa using hpord, by simpa using hiff⟩
    | cons cur rest =>
      have hcurQ : cur ∈ r ++ cur :: rest :=
        List.mem_append.2 (Or.inr (List.mem_cons_self _ _))
      have hcurK : cur ∈ jkeys g := hsub cur hcurQ
      obtain ⟨adj, hadj⟩ := Option.isSome_iff_exists.1
        ((jget_isSome_iff_mem_jkeys g cur).2 hcurK)
      have hadjOf : adjOf g cur = adj := by simp [adjOf, hadj]
      have hnsK : ∀ x ∈ adjOf g cur, x ∈ jkeys g := by
        intro x hx
        rw [hadjOf] at hx
        exact htgt (cur, adj) (jget_mem g cur adj hadj) x hx
      have hconsCur : consumed g r cur = totalIn g cur :=
        (hiff cur hcurK).1 hcurQ
      have hr'sub : ∀ x ∈ r ++ [cur], x ∈ jkeys g := by
        intro x hx
        rcases List.mem_append.1 hx with hx | hx
        · exact hsub x (List.mem_append.2 (Or.inl hx))
        · rw [List.mem_singleton.1 hx]
          exact hcurK
      have hr'nd : (r ++ [cur]).Nodup := by
        have hsubl : List.Sublist (r ++ [cur]) (r ++ cur :: rest) :=
          (List.append_sublist_append_left r).2
            (List.cons_sublist_cons.2 (List.nil_sublist rest))
        exact hsubl.nodup hnd
      have hconsLe' : ∀ k : Int, consumed g (r ++ [cur]) k ≤ totalIn g k :=
        fun k => consumed_le_totalIn g hgnd (r ++ [cur]) hr'nd hr'sub k
      have h1 : ∀ n ∈ adjOf g cur, n ∈ jkeys d := by
        intro n hn
        rw [hkd]
        exact hnsK n hn
      have h2 : ∀ k : Int,
          (((adjOf g cur).count k : Int)) ≤ (jget d k).getD 0 := by
        intro k
        by_cases hk : k ∈ jkeys g
        · rw [hdeg k hk]
          simp only [Option.getD_some]
          have := hconsLe' k
          rw [consumed_concat] at this
          omega
        · have hk0 : (adjOf g cur).count k = 0 :=
            List.count_eq_zero.2 (fun hc => hk (hnsK k hc))
          rw [hk0, jget_eq_none_of_not_mem d k (fun hc => hk (hkd ▸ hc))]
          simp
      obtain ⟨pk, pv, pm, pnd⟩ := processAdj_spec (adjOf g cur) d h1 h2
      have hkd1 : jkeys (processAdj (adjOf g cur) d).1 = jkeys g := by
        rw [pk, hkd]
      have hdeg1 : ∀ k ∈ jkeys g,
          jget (processAdj (adjOf g cur) d).1 k =
            some ((totalIn g k : Int) - (consumed g (r ++ [cur]) k : Int)) := by
        intro k hk
        rw [pv k (hkd ▸ hk), hdeg k hk]
        simp only [Option.getD_some]
        have := consumed_concat g r cur k
        congr 1
        push_cast [this]
        ring
      have hnewQ : ∀ x ∈ (processAdj (adjOf g cur) d).2,
          x ∈ adjOf g cur ∧ consumed g (r ++ [cur]) x = totalIn g x ∧
            x ∉ r ++ cur :: rest := by
        intro x hx
        obtain ⟨hx1, hx2⟩ := (pm x).1 hx
        have hxK : x ∈ jkeys g := hnsK x hx1
        rw [hdeg x hxK] at hx2
        simp only [Option.getD_some] at hx2
        have hcnt : 0 < (adjOf g cur).count x := List.count_pos_iff.2 hx1
        have hceq : consumed g (r ++ [cur]) x = totalIn g x := by
          rw [consumed_concat]
          omega
        refine ⟨hx1, hceq, ?_⟩
        intro hmem
        have := (hiff x hxK).1 hmem
        omega
      have hsub1 : ∀ x ∈ (r ++ [cur]) ++ (rest ++ (processAdj (adjOf g cur) d).2),
          x ∈ jkeys g := by
        intro x hx
        rcases List.mem_append.1 hx with hx | hx
        · exact hr'sub x hx
        · rcases List.mem_append.1 hx with hx | hx
          · exact hsub x (List.mem_append.2 (Or.inr (List.mem_cons_of_mem _ hx)))
          · exact hnsK x ((pm x).1 hx).1
      have hnd1 : ((r ++ [cur]) ++ (rest ++ (processAdj (adjOf g cur) d).2)).Nodup := by
        have hbase : ((r ++ [cur]) ++ rest).Nodup := by
          have : (r ++ [cur]) ++ rest = r ++ cur :: rest := by simp
          rw [this]
          exact hnd
        rw [show (r ++ [cur]) ++ (rest ++ (processAdj (adjOf g cur) d).2) =
            ((r ++ [cur]) ++ rest) ++ (processAdj (adjOf g cur) d).2 by simp]
        rw [List.nodup_append]
        refine ⟨hbase, pnd, ?_⟩
        intro a ha hb
        have := (hnewQ a hb).2.2
        apply this
        rcases List.mem_append.1 ha with ha | ha
        · rcases List.mem_append.1 ha with ha | ha
          · exact List.mem_append.2 (Or.inl ha)
          · rw [List.mem_singleton.1 ha]
            exact hcurQ
        · exact List.mem_append.2 (Or.inr (List.mem_cons_of_mem _ ha))
      have hiff1 : ∀ k ∈ jkeys g,
          (k ∈ (r ++ [cur]) ++ (rest ++ (processAdj (adjOf g cur) d).2) ↔
            consumed g (r ++ [cur]) k = totalIn g k) := by
        intro k hk
        constructor
        · intro hmem
          rcases List.mem_append.1 hmem with hm | hm
          · rcases List.mem_append.1 hm with hm | hm
            · have hold := (hiff k hk).1 (List.mem_append.2 (Or.inl hm))
              have := hconsLe' k
              rw [consumed_concat] at this ⊢
              omega
            · rw [List.mem_singleton.1 hm]
              have := hconsLe' cur
              rw [consumed_concat] at this ⊢
              rw [List.mem_singleton.1 hm] at hm ⊢
              omega
          · rcases List.mem_append.1 hm with hm | hm
            · have hold := (hiff k hk).1
                (List.mem_append.2 (Or.inr (List.mem_cons_of_mem _ hm)))
              have := hconsLe' k
              rw [consumed_concat] at this ⊢
              omega
            · exact (hnewQ k hm).2.1
        · intro hcons
          by_cases hold : consumed g r k = totalIn g k
          · have hmem := (hiff k hk).2 hold
            rcases List.mem_append.1 hmem with hm | hm
            · exact List.mem_append.2 (Or.inl (List.mem_append.2 (Or.inl hm)))
            · rcases List.mem_cons.1 hm with hm | hm
              · exact List.mem_append.2
                  (Or.inl (List.mem_append.2 (Or.inr (by simp [hm]))))
              · exact List.mem_append.2 (Or.inr (List.mem_append.2 (Or.inl hm)))
          · have hcnt : 0 < (adjOf g cur).count k := by
              rw [consumed_concat] at hcons
              omega
            have hkns : k ∈ adjOf g cur := List.count_pos_iff.1 hcnt
            have hkQ : k ∈ (processAdj (adjOf g cur) d).2 := by
              rw [pm k]
              refine ⟨hkns, ?_⟩
              rw [hdeg k hk]
              simp only [Option.getD_some]
              rw [consumed_concat] at hcons
              omega
            exact List.mem_append.2 (Or.inr (List.mem_append.2 (Or.inr hkQ)))
      have hpord1 : Pord g (r ++ [cur]) := by
        intro i hi s hs hadj2
        rw [List.length_append, List.length_singleton] at hi
        by_cases hir : i < r.length
        · have hget : (r ++ [cur]).get ⟨i, by simpa using hi⟩ =
              r.get ⟨i, hir⟩ := List.get_append i hir
          rw [hget] at hadj2
          have := hpord i hir s hs hadj2
          rwa [List.take_append_of_le_length (le_of_lt hir)]
        · have hieq : i = r.length := by omega
          subst hieq
          have hget : (r ++ [cur]).get ⟨r.length, by simpa using hi⟩ = cur :=
            get_append_length r cur (by simp)
          rw [hget] at hadj2
          have hout := (consumed_eq_totalIn_iff g hgnd r
            (by
              have hsubl : List.Sublist r (r ++ cur :: rest) :=
                List.sublist_append_left r (cur :: rest)
              exact hsubl.nodup hnd)
            (fun x hx => hsub x (List.mem_append.2 (Or.inl hx))) cur).1 hconsCur
          have : s ∈ r := by
            by_contra hsr
            have := hout s hs hsr
            rw [List.count_eq_zero] at this
            exact this hadj2
          rwa [List.take_left]
      have hfuel1 : (jkeys g).length ≤ fuel + (r ++ [cur]).length := by
        rw [List.length_append, List.length_singleton]
        omega
      obtain ⟨t, hloop, hnd2, hsub2, hpord2, hiff2⟩ :=
        ih (processAdj (adjOf g cur) d).1
          (rest ++ (processAdj (adjOf g cur) d).2) (r ++ [cur])
          hkd1 hnd1 hsub1 hdeg1 hiff1 hpord1 hfuel1
      refine ⟨cur :: t, ?_, ?_, ?_, ?_, ?_⟩
      · show kahnLoop g (fuel + 1) d (cur :: rest) r = r ++ cur :: t
        simp only [kahnLoop]
        rw [show ((jget g cur).getD [] : List Int) = adjOf g cur from rfl, hloop]
        simp
      · rw [show r ++ cur :: t = (r ++ [cur]) ++ t by simp]
        exact hnd2
      · rw [show r ++ cur :: t = (r ++ [cur]) ++ t by simp]
        exact hsub2
      · rw [show r ++ cur :: t = (r ++ [cur]) ++ t by simp]
        exact hpord2
      · rw [show r ++ cur :: t = (r ++ [cur]) ++ t by simp]
        exact hiff2

theorem consumed_nil (g : List (Int × List Int)) (k : Int) :
    consumed g [] k = 0 := rfl

/-- Combined specification of `topologicalSort` on a collection with
unique ids: the result is duplicate-free, contains only ids, is
prefix-closed for the dependency edges, and contains an id exactly when
all of that id's in-edges originate inside the result. -/
theorem topologicalSort_raw (todos : List Todo) (hnd : (idsOf todos).Nodup) :
    ∃ g d, buildGD todos = (g, d) ∧
      jkeys g = idsOf todos ∧ (jkeys g).Nodup ∧
      (∀ s x : Int, x ∈ adjOf g s ↔ DepRel todos s x) ∧
      (topologicalSort todos).Nodup ∧
      (∀ x ∈ topologicalSort todos, x ∈ idsOf todos) ∧
      Pord g (topologicalSort todos) ∧
      (∀ k ∈ idsOf todos,
        (k ∈ topologicalSort todos ↔
          consumed g (topologicalSort todos) k = totalIn g k)) := by
  obtain ⟨g, d, hbuild, hkg, hkd, hdeg, htgt, char⟩ := buildGD_spec todos hnd
  have hgnd : (jkeys g).Nodup := hkg ▸ hnd
  have hdnd : (jkeys d).Nodup := hkd ▸ hnd
  have htgt' : ∀ p ∈ g, ∀ x ∈ p.2, x ∈ jkeys g := by
    intro p hp x hx
    rw [hkg]
    exact htgt p hp x hx
  have hkdg : jkeys d = jkeys g := hkd.trans hkg.symm
  have hq0sl : List.Sublist
      ((d.filter (fun p => p.2 = 0)).map (fun p => p.1)) (jkeys d) :=
    List.Sublist.map (fun p => p.1) (List.filter_sublist d)
  have hq0nd : ((d.filter (fun p => p.2 = 0)).map (fun p => p.1)).Nodup :=
    hq0sl.nodup hdnd
  have hq0sub : ∀ x ∈ (d.filter (fun p => p.2 = 0)).map (fun p => p.1),
      x ∈ jkeys g := by
    intro x hx
    rw [← hkdg]
    exact hq0sl.subset hx
  have hdegE : ∀ k ∈ jkeys g, jget d k =
      some ((totalIn g k : Int) - (consumed g [] k : Int)) := by
    intro k hk
    rw [hdeg k (hkg ▸ hk), consumed_nil]
    simp
  have hiffE : ∀ k ∈ jkeys g,
      (k ∈ ([] : List Int) ++ (d.filter (fun p => p.2 = 0)).map (fun p => p.1) ↔
        consumed g [] k = totalIn g k) := by
    intro k hk
    rw [consumed_nil, List.nil_append]
    constructor
    · intro hmem
      obtain ⟨p, hp, hpk⟩ := List.mem_map.1 hmem
      obtain ⟨hpd, hp0⟩ := List.mem_filter.1 hp
      have hp0' : p.2 = 0 := by simpa using hp0
      have hjp : jget d p.1 = some p.2 :=
        jget_of_mem_nodup d p.1 p.2 hdnd (by simpa using hpd)
      rw [hpk] at hjp
      rw [hdeg k (hkg ▸ hk)] at hjp
      have : p.2 = ((totalIn g k : Int)) := by
        simpa using hjp.symm
      rw [hp0'] at this
      omega
    · intro htot
      have hjk : jget d k = some ((0 : Nat) : Int) := by
        rw [hdeg k (hkg ▸ hk), ← htot]
      have hmem : (k, ((0 : Nat) : Int)) ∈ d := jget_mem d k _ hjk
      apply List.mem_map.2
      refine ⟨(k, ((0 : Nat) : Int)), List.mem_filter.2 ⟨hmem, by simp⟩, rfl⟩
  have hfuelE : (jkeys g).length ≤ d.length + ([] : List Int).length := by
    rw [← hkdg]
    simp [jkeys]
  obtain ⟨t, hloop, hndT, hsubT, hpordT, hiffT⟩ :=
    kahnLoop_spec g hgnd htgt' d.length d
      ((d.filter (fun p => p.2 = 0)).map (fun p => p.1)) []
      hkdg (by simpa using hq0nd) (by simpa using hq0sub) hdegE hiffE
      (by intro i hi; simp at hi) hfuelE
  have hts : topologicalSort todos = t := by
    show (let gd := buildGD todos;
      let q := (gd.2.filter (fun p => p.2 = 0)).map (fun p => p.1);
      kahnLoop gd.1 gd.2.length gd.2 q []) = t
    rw [hbuild]
    simpa using hloop
  refine ⟨g, d, hbuild, hkg, hgnd, char, ?_, ?_, ?_, ?_⟩
  · rw [hts]; simpa using hndT
  · rw [hts]; intro x hx; rw [← hkg]; exact hsubT x (by simpa using hx)
  · rw [hts]; simpa using hpordT
  · rw [hts]
    intro k hk
    have := hiffT k (hkg ▸ hk)
    simpa using this

theorem mem_take_exists_get {α : Type} :
    ∀ (l : List α) (i : Nat) (a : α), a ∈ l.take i →
      ∃ (j : Nat) (hj : j < l.length), j < i ∧ l.get ⟨j, hj⟩ = a := by
  intro l
  induction l with
  | nil => intro i a h; simp at h
  | cons b l ih =>
    intro i a h
    cases i with
    | zero => simp at h
    | succ i =>
      simp only [List.take_succ_cons, List.mem_cons] at h
      rcases h with h | h
      · exact ⟨0, by simp, Nat.succ_pos _, h.symm⟩
      · obtain ⟨j, hj, hji, hget⟩ := ih i a h
        exact ⟨j + 1, by simpa using Nat.succ_lt_succ hj,
          Nat.succ_lt_succ hji, hget⟩

/-- Membership characterization of `topologicalSort`: an id appears in
the output exactly when it is an id of the collection and every
dependency chain upward from it terminates (it is not on, nor
downstream of, a cycle). -/
theorem topologicalSort_mem_iff_acc (todos : List Todo)
    (hnd : (idsOf todos).Nodup) :
    ∀ v : Int, v ∈ topologicalSort todos ↔
      (v ∈ idsOf todos ∧ Acc (DepRel todos) v) := by
  obtain ⟨g, d, hbuild, hkg, hgnd, char, hndres, hsubres, hpord, hiffR⟩ :=
    topologicalSort_raw todos hnd
  have haccIdx : ∀ (i : Nat) (hi : i < (topologicalSort todos).length),
      Acc (DepRel todos) ((topologicalSort todos).get ⟨i, hi⟩) := by
    intro i
    induction i using Nat.strong_induction_on with
    | _ i ihi =>
      intro hi
      refine Acc.intro _ (fun s hs => ?_)
      have hsK : s ∈ jkeys g := by
        rw [hkg]
        exact hs.2.1
      have hadj : (topologicalSort todos).get ⟨i, hi⟩ ∈ adjOf g s :=
        (char s _).2 hs
      have htake := hpord i hi s hsK hadj
      obtain ⟨j, hj, hji, hgj⟩ :=
        mem_take_exists_get (topologicalSort todos) i s htake
      exact hgj ▸ ihi j hji hj
  have haux : ∀ v : Int, Acc (DepRel todos) v → v ∈ idsOf todos →
      v ∈ topologicalSort todos := by
    intro v hvAcc
    induction hvAcc with
    | intro x hx ihx =>
      intro hxK
      by_contra hxr
      have hne : consumed g (topologicalSort todos) x ≠ totalIn g x :=
        fun hc => hxr ((hiffR x hxK).2 hc)
      have hnall : ¬(∀ s ∈ jkeys g, s ∉ topologicalSort todos →
          (adjOf g s).count x = 0) := by
        intro hall
        exact hne ((consumed_eq_totalIn_iff g hgnd (topologicalSort todos)
          hndres (fun y hy => hkg ▸ hsubres y hy) x).2 hall)
      push_neg at hnall
      obtain ⟨s, hsK, hsr, hcnt⟩ := hnall
      have hxadj : x ∈ adjOf g s :=
        List.count_pos_iff.1 (Nat.pos_of_ne_zero hcnt)
      have hdep : DepRel todos s x := (char s x).1 hxadj
      exact hsr (ihx s hdep hdep.2.1)
  intro v
  constructor
  · intro hv
    obtain ⟨⟨j, hj⟩, hgj⟩ := List.mem_iff_get.1 hv
    exact ⟨hsubres v hv, hgj ▸ haccIdx j hj⟩
  · rintro ⟨hvK, hvAcc⟩
    exact haux v hvAcc hvK

/-- The two tasks of the specification's Scenario A: task 1 with no
dependencies and duration 2h, task 2 depending on task 1 with
duration 3h. -/
def schedEx : List Todo :=
  [mkTodo 1 .absent (some 2), mkTodo 2 (depsArr [1]) (some 3)]

/-- claim C2 (status: confirmed).  On every acyclic task collection
(with the data model's unique ids), `topologicalSort` returns a
permutation of the collection's ids — each identifier exactly once —
and for every dependency edge dep→task whose dependency id is present
in the collection, dep appears strictly before the task's id in the
output (stated as: the two-element list `[dep, task]` is a sublist of
the output). -/
theorem topologicalSort_correct (todos : List Todo)
    (hnd : (idsOf todos).Nodup) (hacy : Acyclic todos) :
    (topologicalSort todos).Perm (idsOf todos) ∧
    ∀ dep x : Int, DepRel todos dep x →
      List.Sublist [dep, x] (topologicalSort todos) := by
  have hmem := topologicalSort_mem_iff_acc todos hnd
  obtain ⟨g, d, hbuild, hkg, hgnd, char, hndres, hsubres, hpord, hiffR⟩ :=
    topologicalSort_raw todos hnd
  have hmemiff : ∀ v : Int, v ∈ topologicalSort todos ↔ v ∈ idsOf todos := by
    intro v
    rw [hmem v]
    exact ⟨fun h => h.1, fun h => ⟨h, hacy v⟩⟩
  constructor
  · exact (List.perm_ext_iff_of_nodup hndres hnd).2 hmemiff
  · intro dep x hdx
    have hxres : x ∈ topologicalSort todos := (hmemiff x).2 hdx.1
    obtain ⟨⟨j, hj⟩, hgj⟩ := List.mem_iff_get.1 hxres
    have hdepK : dep ∈ jkeys g := by
      rw [hkg]
      exact hdx.2.1
    have hadj : (topologicalSort todos).get ⟨j, hj⟩ ∈ adjOf g dep := by
      rw [hgj]
      exact (char dep x).2 hdx
    have htake := hpord j hj dep hdepK hadj
    have h1 : List.Sublist [dep] ((topologicalSort todos).take j) :=
      List.singleton_sublist.2 htake
    have hgetelem : (topologicalSort todos)[j] = x := by
      rw [← hgj]
      simp
    have hdropeq : (topologicalSort todos).drop j =
        x :: (topologicalSort todos).drop (j + 1) := by
      rw [List.drop_eq_getElem_cons hj, hgetelem]
    have h2 : List.Sublist [x] ((topologicalSort todos).drop j) := by
      rw [hdropeq]
      exact List.singleton_sublist.2 (List.mem_cons_self _ _)
    have h3 : List.Sublist ([dep] ++ [x])
        ((topologicalSort todos).take j ++ (topologicalSort todos).drop j) :=
      List.Sublist.append h1 h2
    rw [List.take_append_drop] at h3
    exact h3

/-- Witness for C2 at Scenario A (task 2 depends on task 1): the
hypotheses (unique ids, acyclicity) hold and the conclusion follows by
applying `topologicalSort_correct`. -/
theorem topologicalSort_correct_witness :
    (idsOf schedEx).Nodup ∧ Acyclic schedEx ∧
    ((topologicalSort schedEx).Perm (idsOf schedEx) ∧
     ∀ dep x : Int, DepRel schedEx dep x →
       List.Sublist [dep, x] (topologicalSort schedEx)) := by
  have hnd : (idsOf schedEx).Nodup := by decide
  have hacc1 : Acc (DepRel schedEx) 1 := by
    refine Acc.intro 1 (fun e he => ?_)
    have hdd : e ∈ depsOfId schedEx 1 := he.2.2
    rw [show depsOfId schedEx 1 = [] from by decide] at hdd
    simp at hdd
  have hacy : Acyclic schedEx := by
    intro v
    refine Acc.intro v (fun e he => ?_)
    have hv : v ∈ idsOf schedEx := he.1
    rw [show idsOf schedEx = [1, 2] from by decide] at hv
    have hdd : e ∈ depsOfId schedEx v := he.2.2
    rcases List.mem_cons.1 hv with hv | hv
    · subst hv
      rw [show depsOfId schedEx 1 = [] from by decide] at hdd
      simp at hdd
    · have hv2 : v = 2 := by simpa using hv
      subst hv2
      rw [show depsOfId schedEx 2 = [1] from by decide] at hdd
      have he1 : e = 1 := by simpa using hdd
      subst he1
      exact hacc1
  exact ⟨hnd, hacy, topologicalSort_correct schedEx hnd hacy⟩

/-- claim C7 (status: confirmed).  `topologicalSort` is a total
function (no error path exists in the embedding), and on any collection
— cyclic ones included — it returns the truncated partial order holding
exactly the ids that are not on and not downstream of a cycle (those
whose dependency chains all terminate); in particular on the two-task
mutual cycle `{1 depends on [2], 2 depends on [1]}` it returns the
empty sequence. -/
theorem topologicalSort_cyclic_truncated :
    (∀ (todos : List Todo), (idsOf todos).Nodup →
      ∀ v : Int, v ∈ topologicalSort todos ↔
        (v ∈ idsOf todos ∧ Acc (DepRel todos) v)) ∧
    topologicalSort cycTwo = [] :=
  ⟨topologicalSort_mem_iff_acc, by decide⟩

/-- Witness for C7 at the two-task mutual cycle: the unique-ids
hypothesis is discharged by computation and the characterization is
instantiated at id 1. -/
theorem topologicalSort_cyclic_truncated_witness :
    (idsOf cycTwo).Nodup ∧
    (1 ∈ topologicalSort cycTwo ↔
      (1 ∈ idsOf cycTwo ∧ Acc (DepRel cycTwo) 1)) := by
  have hnd : (idsOf cycTwo).Nodup := by decide
  exact ⟨hnd, topologicalSort_cyclic_truncated.1 cycTwo hnd 1⟩

/-! ### Schedule calculation (`calculateSchedule`, lines 117-157) and
critical path (`findCriticalPath` / `tracePath`, lines 160-214)

`Date`s are `Int` milliseconds.  Every occurrence of `new Date()` in
the source consumes the next sample of the injected clock `clk`; the
walk over the topological order consumes one sample per task (line
129 sits inside the `forEach`). -/

/-- Output record of `calculateSchedule`: the original task plus the
three added fields (`{...todo, dependsOn, earliestStart,
isOnCriticalPath}`).  `earliestStart` is `none` when the task never
made it into the map (its id only occurs inside a cycle). -/
structure TodoCalc where
  base : Todo
  dependsOn : List Int
  earliestStart : Option Int
  isOnCriticalPath : Bool

/-- The dependency scan of one walk step (lines 131-137): starting from
the fresh `now` sample, replace the running maximum by every recorded
dependency completion that strictly exceeds it. -/
def depMax (ct : List (Int × Int)) (deps : List Int) (now : Int) : Int :=
  deps.foldl (fun m depId =>
    match jget ct depId with
    | some c => if c > m then c else m
    | none => m) now

/-- One step of the earliest-start walk (lines 125-145): take a fresh
clock sample as the base start, raise it by every already-recorded
dependency completion that strictly exceeds the running maximum, then
record the start and the completion (start + duration·3600000 ms).
The state is (earliestStart, completionTime, next sample index). -/
def schedStep (clk : Nat → Int) (todoMap : List (Int × Todo))
    (st : List (Int × Int) × List (Int × Int) × Nat) (todoId : Int) :
    List (Int × Int) × List (Int × Int) × Nat :=
  match jget todoMap todoId with
  | none => st
  | some todo =>
    let maxC := depMax st.2.1 (parseDeps todo) (clk st.2.2)
    (jset st.1 todoId maxC,
     jset st.2.1 todoId (maxC + effDuration todo * 3600000),
     st.2.2 + 1)

/-- The `earliestStart` and `completionTime` maps computed by one
`calculateSchedule` invocation. -/
def scheduleMaps (clk : Nat → Int) (todos : List Todo) :
    List (Int × Int) × List (Int × Int) :=
  let todoMap := todos.foldl (fun m t => jset m t.id t) []
  let st := (topologicalSort todos).foldl (schedStep clk todoMap) ([], [], 0)
  (st.1, st.2.1)

/-- Inner selection of `tracePath` (lines 194-205): scan the dependency
list, keeping the dependency with a recorded completion within 1000 ms
of the current task's start whose completion strictly exceeds the
running latest; the accumulator starts at the sentinel `(-1, epoch)`. -/
def selStep (ct : List (Int × Int)) (start : Int)
    (acc : Int × Int) (depId : Int) : Int × Int :=
  match jget ct depId with
  | some c =>
    if (c - start).natAbs < 1000 then
      (if c > acc.2 then (depId, c) else acc)
    else acc
  | none => acc

/-- The selected dependency id of one trace step (lines 194-207): the
scan's final best id, `-1` when no dependency qualified or raised the
running latest completion above the epoch. -/
def selectDep (deps : List Int) (ct : List (Int × Int)) (start : Int) : Int :=
  (deps.foldl (selStep ct start) (-1, 0)).1

/-- Backward trace of the critical path (lines 182-210), fuel-bounded.
A visited task returns immediately; otherwise the task is pushed onto
the path and marked visited, and the trace recurses into the selected
dependency unless the selection returned the sentinel `-1`.  Every
recursion target has a recorded completion, so fuel
`|completionTime| + 1` never runs out when the trace starts on a
recorded task. -/
def tracePath (todos : List Todo) (es ct : List (Int × Int)) :
    Nat → Int → List Int → List Int → List Int × List Int
  | 0, _, path, vis => (path, vis)
  | fuel + 1, todoId, path, vis =>
    if todoId ∈ vis then (path, vis)
    else
      let vis2 := todoId :: vis
      let path2 := path ++ [todoId]
      match findTodo todos todoId with
      | none => (path2, vis2)
      | some todo =>
        let cd := selectDep (parseDeps todo) ct ((jget es todoId).getD 0)
        if cd = -1 then (path2, vis2)
        else tracePath todos es ct fuel cd path2 vis2

/-- Embedding of `findCriticalPath` (lines 160-214): pick the task with
the strictly latest completion (sentinel `(epoch, -1)`, map iteration
order), return `[]` when the sentinel survives, otherwise trace
backward from it and reverse. -/
def findCriticalPath (todos : List Todo) (es ct : List (Int × Int)) :
    List Int :=
  let fold := ct.foldl (fun (acc : Int × Int) p =>
    if p.2 > acc.1 then (p.2, p.1) else acc) (0, -1)
  if fold.2 = -1 then []
  else (tracePath todos es ct (ct.length + 1) fold.2 [] []).1.reverse

/-- Embedding of `calculateSchedule` (lines 117-157): compute the
schedule maps, extract the critical path, and return the input tasks in
input order with the three added fields. -/
def calculateSchedule (clk : Nat → Int) (todos : List Todo) :
    List TodoCalc :=
  let maps := scheduleMaps clk todos
  let criticalPath := findCriticalPath todos maps.1 maps.2
  todos.map (fun t =>
    { base := t, dependsOn := parseDeps t,
      earliestStart := jget maps.1 t.id,
      isOnCriticalPath := criticalPath.contains t.id })

example :
    (calculateSchedule (fun _ => 0) schedEx).map (·.earliestStart) =
      [some 0, some 7200000] := by decide

example :
    (calculateSchedule (fun _ => 0) schedEx).map (·.isOnCriticalPath) =
      [true, true] := by decide

example :
    (calculateSchedule (fun _ => 0)
      [mkTodo 1 .absent (some 1), mkTodo 2 .absent (some 1),
       mkTodo 3 (depsArr [1, 2]) (some 1)]).map (·.earliestStart) =
      [some 0, some 0, some 3600000] := by decide

/-- claim C10 (status: confirmed).  `calculateSchedule` returns exactly
one result per input task, in input order (independent of the
topological order): the list of the results' original-task components
is the input list itself, so every original field is retained
unchanged, and the three added fields are exactly the parsed dependency
list, the earliest-start map lookup, and the critical-path membership
flag. -/
theorem calculateSchedule_frame (clk : Nat → Int) (todos : List Todo) :
    ((calculateSchedule clk todos).map (fun r => r.base) = todos) ∧
    ((calculateSchedule clk todos).map (fun r => r.dependsOn) =
      todos.map parseDeps) ∧
    ((calculateSchedule clk todos).map (fun r => r.earliestStart) =
      todos.map (fun t => jget (scheduleMaps clk todos).1 t.id)) ∧
    ((calculateSchedule clk todos).map (fun r => r.isOnCriticalPath) =
      todos.map (fun t =>
        (findCriticalPath todos (scheduleMaps clk todos).1
          (scheduleMaps clk todos).2).contains t.id)) := by
  refine ⟨?_, ?_, ?_, ?_⟩ <;>
    simp [calculateSchedule, List.map_map, Function.comp_def]

/-- The strictly-monotone millisecond clock used to exhibit per-task
clock sampling: sample `i` reads `i` (the clock advanced 1 ms between
consecutive `new Date()` calls). -/
def natClk : Nat → Int := fun i => (i : Int)

/-- Counterexample to claim C4 as stated: two independent tasks, clock
advancing 1 ms between samples.  The code takes a fresh `new Date()`
inside the per-task loop (line 129), so the two no-dependency tasks get
the distinct earliest-starts 0 ms and 1 ms instead of one shared
reference "now". -/
theorem calculateSchedule_resamples_clock :
    (calculateSchedule natClk
      [mkTodo 1 .absent none, mkTodo 2 .absent none]).map
        (fun r => r.earliestStart) = [some 0, some 1] ∧
    some (0 : Int) ≠ some (1 : Int) := by
  refine ⟨by decide, by decide⟩

/-- Clock for the C3 counterexample: the first sample reads 0 ms, the
second 10000000 ms (the clock jumped past the first task's completion
between the two samples). -/
def jumpClk : Nat → Int := fun i => if i = 0 then 0 else 10000000

/-- The C3 counterexample collection: task 2 depends on task 1, both
1 hour long. -/
def c3ex : List Todo :=
  [mkTodo 1 .absent (some 1), mkTodo 2 (depsArr [1]) (some 1)]

/-- Counterexample to claim C3 as stated: task 2's only dependency,
task 1, exists in the collection and completes at 3600000 ms, yet
task 2's earliest start is its own clock sample 10000000 ms (the code
starts the maximum at `new Date()` and only raises it by strictly
larger dependency completions), not the dependency-completion maximum
3600000. -/
theorem calculateSchedule_start_not_dep_max :
    c3ex.map parseDeps = [[], [1]] ∧
    jget (scheduleMaps jumpClk c3ex).2 1 = some 3600000 ∧
    (calculateSchedule jumpClk c3ex).map (fun r => r.earliestStart) =
      [some 0, some 10000000] ∧
    some (10000000 : Int) ≠ some (3600000 : Int) := by
  refine ⟨by decide, by decide, by decide, by decide⟩

/-- Counterexample to claim C5 as stated: the two-task mutual cycle is
a non-empty collection, but the topological order is empty, the
completion map stays empty, the end-task sentinel `-1` survives, and no
task at all is flagged on the critical path. -/
theorem criticalPath_empty_on_cycle :
    cycTwo.length = 2 ∧
    (calculateSchedule (fun _ => 0) cycTwo).map
      (fun r => r.isOnCriticalPath) = [false, false] := by
  refine ⟨by decide, by decide⟩

/-- Clock for the C6 counterexample: every sample reads -7200000 ms
(two hours before the epoch — timestamps before 1970 are legal dates). -/
def epochClk : Nat → Int := fun _ => -7200000

/-- The C6 counterexample collection: task 1 (1h), task 2 (2h)
depending on task 1. -/
def c6ex : List Todo :=
  [mkTodo 1 .absent (some 1), mkTodo 2 (depsArr [1]) (some 2)]

/-- Counterexample to claim C6 as stated: tracing back from end task 2,
dependency 1 qualifies for the tolerance test — its completion
-3600000 ms is exactly task 2's earliest start — yet the trace stops at
task 2 (only task 2 is flagged), because the selection loop starts its
running latest at `new Date(0)` and accepts only completions strictly
after the epoch, so the claim "the trace stops when no dependency
qualifies" fails. -/
theorem tracePath_stops_at_epoch_qualifier :
    (calculateSchedule epochClk c6ex).map (fun r => r.isOnCriticalPath) =
      [false, true] ∧
    jget (scheduleMaps epochClk c6ex).2 1 = some (-3600000) ∧
    jget (scheduleMaps epochClk c6ex).1 2 = some (-3600000) ∧
    ((-3600000 : Int) - (-3600000)).natAbs < 1000 := by
  refine ⟨by decide, by decide, by decide, by decide⟩

theorem ite_gt_eq_max (a b : Int) : (if b > a then b else a) = max a b := by
  rcases le_or_lt b a with h | h
  · rw [if_neg (not_lt.2 h), max_eq_left h]
  · rw [if_pos h, max_eq_right h.le]

theorem depMax_congr (ct1 ct2 : List (Int × Int)) :
    ∀ (deps : List Int) (now : Int),
    (∀ d ∈ deps, jget ct1 d = jget ct2 d) →
    depMax ct1 deps now = depMax ct2 deps now := by
  intro deps
  induction deps with
  | nil => intro now _; rfl
  | cons d deps ih =>
    intro now h
    have hd := h d (List.mem_cons_self _ _)
    show depMax ct1 (d :: deps) now = depMax ct2 (d :: deps) now
    simp only [depMax, List.foldl_cons, hd]
    exact ih _ (fun e he => h e (List.mem_cons_of_mem _ he))

theorem depMax_eq_foldl_max (ct : List (Int × Int)) :
    ∀ (deps : List Int) (now : Int),
    depMax ct deps now =
      (deps.filterMap (fun d => jget ct d)).foldl max now := by
  intro deps
  induction deps with
  | nil => intro now; rfl
  | cons d deps ih =>
    intro now
    cases h : jget ct d with
    | none =>
      simp only [depMax, List.foldl_cons, h, List.filterMap_cons]
      exact ih now
    | some c =>
      simp only [depMax, List.foldl_cons, h, List.filterMap_cons]
      rw [show (if c > now then c else now) = max now c from ite_gt_eq_max now c]
      exact ih (max now c)

theorem le_foldl_max (l : List Int) : ∀ now : Int, now ≤ l.foldl max now := by
  induction l with
  | nil => intro now; exact le_refl _
  | cons c l ih =>
    intro now
    calc now ≤ max now c := le_max_left _ _
    _ ≤ l.foldl max (max now c) := ih _

theorem depMax_ge_now (ct : List (Int × Int)) (deps : List Int) (now : Int) :
    now ≤ depMax ct deps now := by
  rw [depMax_eq_foldl_max]
  exact le_foldl_max _ now

theorem todoMap_go (todos : List Todo) :
    ∀ (m : List (Int × Todo)),
    (idsOf todos).Nodup →
    (∀ t ∈ todos, t.id ∉ jkeys m) →
    todos.foldl (fun m t => jset m t.id t) m =
      m ++ todos.map (fun t => (t.id, t)) := by
  induction todos with
  | nil => intro m _ _; simp
  | cons t todos ih =>
    intro m hnd hm
    simp only [idsOf, List.map_cons, List.nodup_cons] at hnd
    have hmt : t.id ∉ jkeys m := hm t (List.mem_cons_self _ _)
    rw [List.foldl_cons, jset_eq_append_of_not_mem m t.id t hmt]
    have hm' : ∀ u ∈ todos, u.id ∉ jkeys (m ++ [(t.id, t)]) := by
      intro u hu hmem
      simp only [jkeys, List.map_append, List.mem_append, List.map_cons,
        List.map_nil, List.mem_singleton] at hmem
      rcases hmem with hmem | hmem
      · exact hm u (List.mem_cons_of_mem _ hu) hmem
      · exact hnd.1 (hmem ▸ List.mem_map.2 ⟨u, hu, rfl⟩)
    rw [ih _ hnd.2 hm']
    simp

theorem jget_todoMap (todos : List Todo) (k : Int) :
    jget (todos.map (fun t => (t.id, t))) k = findTodo todos k := by
  induction todos with
  | nil => rfl
  | cons t todos ih =>
    by_cases h : t.id = k
    · have hf : findTodo (t :: todos) k = some t := by
        rw [findTodo]
        exact List.find?_cons_of_pos _ (by simp [h])
      rw [hf]
      simp [jget, h]
    · have hf : findTodo (t :: todos) k = findTodo todos k := by
        rw [findTodo, findTodo]
        exact List.find?_cons_of_neg _ (by simp [h])
      rw [hf, ← ih]
      simp [jget, h]

/-- Invariant theorem for the earliest-start walk of
`calculateSchedule`: folding the remaining ids `l` (after the already
processed prefix `pre`) extends both maps by exactly `l`, preserves all
earlier entries, and records for the `j`-th id of `l` a start equal to
`depMax` of its parsed dependencies over the completion map as of that
step (whose keys are exactly the processed prefix, and whose entries
agree with the final map), based at the clock sample of that step. -/
theorem schedFold_spec (clk : Nat → Int) (todos : List Todo) :
    ∀ (l pre : List Int) (es ct : List (Int × Int)),
    (pre ++ l).Nodup →
    (∀ x ∈ l, x ∈ idsOf todos) →
    jkeys es = pre → jkeys ct = pre →
    ∃ es' ct',
      l.foldl (schedStep clk (todos.map (fun t => (t.id, t))))
        (es, ct, pre.length) = (es', ct', pre.length + l.length) ∧
      jkeys es' = pre ++ l ∧ jkeys ct' = pre ++ l ∧
      (∀ k ∈ pre, jget es' k = jget es k ∧ jget ct' k = jget ct k) ∧
      (∀ (j : Nat) (hj : j < l.length),
        ∃ t ctj, findTodo todos (l.get ⟨j, hj⟩) = some t ∧
          jkeys ctj = pre ++ l.take j ∧
          (∀ x ∈ pre ++ l.take j, jget ctj x = jget ct' x) ∧
          jget es' (l.get ⟨j, hj⟩) =
            some (depMax ctj (parseDeps t) (clk (pre.length + j))) ∧
          jget ct' (l.get ⟨j, hj⟩) =
            some (depMax ctj (parseDeps t) (clk (pre.length + j)) +
              effDuration t * 3600000)) := by
  intro l
  induction l with
  | nil =>
    intro pre es ct hnd hsub hkes hkct
    refine ⟨es, ct, by simp, by simp [hkes], by simp [hkct],
      fun k _ => ⟨rfl, rfl⟩, ?_⟩
    intro j hj
    simp at hj
  | cons k0 l ih =>
    intro pre es ct hnd hsub hkes hkct
    have hk0ids : k0 ∈ idsOf todos := hsub k0 (List.mem_cons_self _ _)
    obtain ⟨t0, hft0, ht0mem, ht0id⟩ := findTodo_some_of_mem_ids todos k0 hk0ids
    have hjm : jget (todos.map (fun t => (t.id, t))) k0 = some t0 := by
      rw [jget_todoMap]
      exact hft0
    have hk0pre : k0 ∉ pre := by
      intro hc
      have := List.disjoint_of_nodup_append hnd
      exact this hc (List.mem_cons_self _ _)
    have hk0es : k0 ∉ jkeys es := hkes ▸ hk0pre
    have hk0ct : k0 ∉ jkeys ct := hkct ▸ hk0pre
    have hstep : schedStep clk (todos.map (fun t => (t.id, t)))
        (es, ct, pre.length) k0 =
        (jset es k0 (depMax ct (parseDeps t0) (clk pre.length)),
         jset ct k0 (depMax ct (parseDeps t0) (clk pre.length) +
           effDuration t0 * 3600000),
         pre.length + 1) := by
      simp only [schedStep, hjm]
    have hkes1 : jkeys (jset es k0 (depMax ct (parseDeps t0) (clk pre.length)))
        = pre ++ [k0] := by
      rw [jkeys_jset_of_not_mem es k0 _ hk0es, hkes]
    have hkct1 : jkeys (jset ct k0 (depMax ct (parseDeps t0) (clk pre.length) +
        effDuration t0 * 3600000)) = pre ++ [k0] := by
      rw [jkeys_jset_of_not_mem ct k0 _ hk0ct, hkct]
    have hnd' : ((pre ++ [k0]) ++ l).Nodup := by
      rw [show (pre ++ [k0]) ++ l = pre ++ k0 :: l by simp]
      exact hnd
    obtain ⟨es', ct', hfold, hkes', hkct', hpres, hidx⟩ :=
      ih (pre ++ [k0]) _ _ hnd'
        (fun x hx => hsub x (List.mem_cons_of_mem _ hx)) hkes1 hkct1
    have hlen1 : (pre ++ [k0]).length = pre.length + 1 := by simp
    refine ⟨es', ct', ?_, ?_, ?_, ?_, ?_⟩
    · rw [List.foldl_cons, hstep, show pre.length + 1 = (pre ++ [k0]).length
        from hlen1.symm, hfold]
      congr 1
      congr 1
      simp
      omega
    · rw [hkes']
      simp
    · rw [hkct']
      simp
    · intro k hk
      have hkk0 : k ≠ k0 := fun hc => hk0pre (hc ▸ hk)
      have h1 := hpres k (List.mem_append.2 (Or.inl hk))
      rw [h1.1, h1.2, jget_jset_ne es k0 k _ hkk0, jget_jset_ne ct k0 k _ hkk0]
      exact ⟨rfl, rfl⟩
    · intro j hj
      cases j with
      | zero =>
        refine ⟨t0, ct, hft0, by simp [hkct], ?_, ?_, ?_⟩
        · intro x hx
          simp only [List.take_zero, List.append_nil] at hx
          have hxk0 : x ≠ k0 := fun hc => hk0pre (hc ▸ hx)
          have h1 := hpres x (List.mem_append.2 (Or.inl hx))
          rw [h1.2, jget_jset_ne ct k0 x _ hxk0]
        · have h1 := hpres k0 (List.mem_append.2 (Or.inr (by simp)))
          rw [show ((k0 :: l).get ⟨0, hj⟩) = k0 from rfl, h1.1, jget_jset_self]
          simp
        · have h1 := hpres k0 (List.mem_append.2 (Or.inr (by simp)))
          rw [show ((k0 :: l).get ⟨0, hj⟩) = k0 from rfl, h1.2, jget_jset_self]
          simp
      | succ j =>
        have hj' : j < l.length := by
          simp only [List.length_cons] at hj
          omega
        obtain ⟨t, ctj, hft, hkctj, hagree, hes, hct⟩ := hidx j hj'
        refine ⟨t, ctj, ?_, ?_, ?_, ?_, ?_⟩
        · exact hft
        · rw [hkctj]
          simp
        · intro x hx
          apply hagree
          simp only [List.append_assoc, List.singleton_append] at hx ⊢
          simpa using hx
        · rw [show ((k0 :: l).get ⟨j + 1, hj⟩) = l.get ⟨j, hj'⟩ from rfl]
          rw [hes]
          have harg : (pre ++ [k0]).length + j = pre.length + (j + 1) := by
            simp
            omega
          rw [harg]
        · rw [show ((k0 :: l).get ⟨j + 1, hj⟩) = l.get ⟨j, hj'⟩ from rfl]
          rw [hct]
          have harg : (pre ++ [k0]).length + j = pre.length + (j + 1) := by
            simp
            omega
          rw [harg]

theorem depMax_of_none (ct : List (Int × Int)) :
    ∀ (deps : List Int) (now : Int),
    (∀ d ∈ deps, jget ct d = none) → depMax ct deps now = now := by
  intro deps
  induction deps with
  | nil => intro now _; rfl
  | cons d deps ih =>
    intro now h
    have hd := h d (List.mem_cons_self _ _)
    simp only [depMax, List.foldl_cons, hd]
    exact ih now (fun e he => h e (List.mem_cons_of_mem _ he))

/-- Top-level specification of `scheduleMaps`: both maps carry exactly
the topologically ordered ids, the walk consumes exactly one clock
sample per ordered task, and the `j`-th ordered task's start is the
`depMax` of its dependencies over the completion map as of step `j`
(keyed by the first `j` ordered ids, agreeing there with the final
map), based at clock sample `j`. -/
theorem scheduleMaps_spec (clk : Nat → Int) (todos : List Todo)
    (hnd : (idsOf todos).Nodup) :
    ∃ es ct,
      (topologicalSort todos).foldl
        (schedStep clk (todos.map (fun t => (t.id, t)))) ([], [], 0) =
        (es, ct, (topologicalSort todos).length) ∧
      scheduleMaps clk todos = (es, ct) ∧
      jkeys es = topologicalSort todos ∧
      jkeys ct = topologicalSort todos ∧
      (∀ (j : Nat) (hj : j < (topologicalSort todos).length),
        ∃ t ctj,
          findTodo todos ((topologicalSort todos).get ⟨j, hj⟩) = some t ∧
          jkeys ctj = (topologicalSort todos).take j ∧
          (∀ x ∈ (topologicalSort todos).take j, jget ctj x = jget ct x) ∧
          jget es ((topologicalSort todos).get ⟨j, hj⟩) =
            some (depMax ctj (parseDeps t) (clk j)) ∧
          jget ct ((topologicalSort todos).get ⟨j, hj⟩) =
            some (depMax ctj (parseDeps t) (clk j) +
              effDuration t * 3600000)) := by
  obtain ⟨g, d, _, _, _, _, hndres, hsubres, _, _⟩ :=
    topologicalSort_raw todos hnd
  have htm : todos.foldl (fun m t => jset m t.id t) [] =
      todos.map (fun t => (t.id, t)) := by
    have := todoMap_go todos [] hnd (by simp [jkeys])
    simpa using this
  obtain ⟨es, ct, hfold, hkes, hkct, _, hidx⟩ :=
    schedFold_spec clk todos (topologicalSort todos) [] [] []
      (by simpa using hndres) hsubres (by simp [jkeys]) (by simp [jkeys])
  simp only [List.length_nil, List.nil_append, Nat.zero_add] at hfold hkes hkct
  refine ⟨es, ct, hfold, ?_, hkes, hkct, ?_⟩
  · simp only [scheduleMaps]
    rw [htm, hfold]
  · intro j hj
    obtain ⟨t, ctj, h1, h2, h3, h4, h5⟩ := hidx j hj
    refine ⟨t, ctj, h1, by simpa using h2, ?_, by simpa using h4,
      by simpa using h5⟩
    intro x hx
    exact h3 x (by simpa using hx)

/-- claim C4 (status: corrected).  The source samples the clock inside
the per-task loop, not once per call: `calculateSchedule` consumes
exactly one `new Date()` sample per ordered task (the sample counter of
the walk ends at the number of ordered tasks), and a task with no
existing dependencies receives as earliest start the clock sample taken
at its own position in the topological order — so all "no dependency"
tasks get identical earliest starts only when those per-task samples
happen to coincide, not by construction. -/
theorem calculateSchedule_clock_per_task (clk : Nat → Int)
    (todos : List Todo) (hnd : (idsOf todos).Nodup) :
    (((topologicalSort todos).foldl
        (schedStep clk (todos.map (fun t => (t.id, t)))) ([], [], 0)).2.2 =
      (topologicalSort todos).length) ∧
    (∀ (j : Nat) (hj : j < (topologicalSort todos).length),
      (∀ d ∈ depsOfId todos ((topologicalSort todos).get ⟨j, hj⟩),
        d ∉ idsOf todos) →
      jget (scheduleMaps clk todos).1
        ((topologicalSort todos).get ⟨j, hj⟩) = some (clk j)) := by
  obtain ⟨g, dd, _, _, _, _, hndres, hsubres, _, _⟩ :=
    topologicalSort_raw todos hnd
  obtain ⟨es, ct, hfold, hmaps, hkes, hkct, hidx⟩ := scheduleMaps_spec clk todos hnd
  constructor
  · rw [hfold]
  · intro j hj hdeps
    obtain ⟨t, ctj, hft, hkctj, hagree, hes, hct⟩ := hidx j hj
    have hdepsOf : depsOfId todos ((topologicalSort todos).get ⟨j, hj⟩) =
        parseDeps t := by
      rw [depsOfId, hft]
    rw [hmaps]
    simp only
    rw [hes]
    congr 1
    apply depMax_of_none
    intro d hd
    apply jget_eq_none_of_not_mem
    rw [hkctj]
    intro hc
    have hdids : d ∈ idsOf todos :=
      hsubres d (List.mem_of_mem_take hc)
    exact hdeps d (hdepsOf ▸ hd) hdids

/-- Witness for the amended C4 at a single independent task under the
strictly advancing clock: the task at position 0 has no dependencies
and receives exactly clock sample 0. -/
theorem calculateSchedule_clock_per_task_witness :
    (idsOf [mkTodo 1 .absent none]).Nodup ∧
    jget (scheduleMaps natClk [mkTodo 1 .absent none]).1
      ((topologicalSort [mkTodo 1 .absent none]).get ⟨0, by decide⟩) =
      some (natClk 0) := by
  refine ⟨by decide, ?_⟩
  exact (calculateSchedule_clock_per_task natClk [mkTodo 1 .absent none]
    (by decide)).2 0 (by decide) (by decide)

/-- claim C3 (status: corrected).  The earliest start of the `j`-th
ordered task is the maximum of that task's own clock sample and the
recorded completion timestamps of its dependencies — the code starts
the running maximum at `new Date()` (line 129) and only raises it by
strictly larger dependency completions, so the dependency-completion
maximum alone governs the start only when it does not fall below the
task's clock sample. -/
theorem calculateSchedule_start_eq_max (clk : Nat → Int)
    (todos : List Todo) (hnd : (idsOf todos).Nodup) :
    ∀ (j : Nat) (hj : j < (topologicalSort todos).length),
      jget (scheduleMaps clk todos).1
        ((topologicalSort todos).get ⟨j, hj⟩) =
      some (((depsOfId todos ((topologicalSort todos).get ⟨j, hj⟩)).filterMap
        (fun d => jget (scheduleMaps clk todos).2 d)).foldl max (clk j)) := by
  obtain ⟨g, dd, hbuild, hkg, hgnd, char, hndres, hsubres, hpord, hiffR⟩ :=
    topologicalSort_raw todos hnd
  obtain ⟨es, ct, hfold, hmaps, hkes, hkct, hidx⟩ := scheduleMaps_spec clk todos hnd
  intro j hj
  obtain ⟨t, ctj, hft, hkctj, hagree, hes, hct⟩ := hidx j hj
  have hdepsOf : depsOfId todos ((topologicalSort todos).get ⟨j, hj⟩) =
      parseDeps t := by
    rw [depsOfId, hft]
  rw [hmaps]
  simp only
  rw [hes, hdepsOf]
  have hcongr : depMax ctj (parseDeps t) (clk j) =
      depMax ct (parseDeps t) (clk j) := by
    apply depMax_congr
    intro d hd
    by_cases hdids : d ∈ idsOf todos
    · -- a present dependency was ordered before position j
      have hdk : d ∈ jkeys g := hkg ▸ hdids
      have hdeprel : DepRel todos d ((topologicalSort todos).get ⟨j, hj⟩) := by
        refine ⟨hsubres _ (List.get_mem _ _ _), hdids, ?_⟩
        rw [hdepsOf]
        exact hd
      have hadj : (topologicalSort todos).get ⟨j, hj⟩ ∈ adjOf g d :=
        (char d _).2 hdeprel
      have htake := hpord j hj d hdk hadj
      exact hagree d htake
    · -- an absent dependency is in neither map
      rw [jget_eq_none_of_not_mem ctj d, jget_eq_none_of_not_mem ct d]
      · rw [hkct]
        intro hc
        exact hdids (hsubres d hc)
      · rw [hkctj]
        intro hc
        exact hdids (hsubres d (List.mem_of_mem_take hc))
  rw [hcongr, depMax_eq_foldl_max]

/-- Witness for the amended C3 at the counterexample input itself:
task 2 (position 1 of the order) starts at the maximum of its own clock
sample 10000000 and its dependency's completion 3600000. -/
theorem calculateSchedule_start_eq_max_witness :
    (idsOf c3ex).Nodup ∧
    jget (scheduleMaps jumpClk c3ex).1
      ((topologicalSort c3ex).get ⟨1, by decide⟩) =
    some (((depsOfId c3ex ((topologicalSort c3ex).get ⟨1, by decide⟩)).filterMap
      (fun d => jget (scheduleMaps jumpClk c3ex).2 d)).foldl max (jumpClk 1)) := by
  refine ⟨by decide, ?_⟩
  exact calculateSchedule_start_eq_max jumpClk c3ex (by decide) 1 (by decide)

theorem endFold_cases (ct : List (Int × Int)) :
    ∀ acc : Int × Int,
      ct.foldl (fun acc p => if p.2 > acc.1 then (p.2, p.1) else acc) acc =
        acc ∨
      ∃ p ∈ ct, ct.foldl (fun acc p => if p.2 > acc.1 then (p.2, p.1) else acc)
        acc = (p.2, p.1) := by
  induction ct with
  | nil => intro acc; exact Or.inl rfl
  | cons q ct ih =>
    intro acc
    rw [List.foldl_cons]
    by_cases h : q.2 > acc.1
    · rw [if_pos h]
      rcases ih (q.2, q.1) with h2 | ⟨p, hp, h2⟩
      · exact Or.inr ⟨q, List.mem_cons_self _ _, h2⟩
      · exact Or.inr ⟨p, List.mem_cons_of_mem _ hp, h2⟩
    · rw [if_neg h]
      rcases ih acc with h2 | ⟨p, hp, h2⟩
      · exact Or.inl h2
      · exact Or.inr ⟨p, List.mem_cons_of_mem _ hp, h2⟩

theorem endFold_fst_ge (ct : List (Int × Int)) :
    ∀ acc : Int × Int,
      acc.1 ≤ (ct.foldl (fun acc p => if p.2 > acc.1 then (p.2, p.1) else acc)
        acc).1 ∧
      ∀ p ∈ ct, p.2 ≤ (ct.foldl
        (fun acc p => if p.2 > acc.1 then (p.2, p.1) else acc) acc).1 := by
  induction ct with
  | nil => intro acc; exact ⟨le_refl _, by simp⟩
  | cons q ct ih =>
    intro acc
    rw [List.foldl_cons]
    by_cases h : q.2 > acc.1
    · rw [if_pos h]
      obtain ⟨h1, h2⟩ := ih (q.2, q.1)
      refine ⟨le_of_lt (lt_of_lt_of_le h h1), ?_⟩
      intro p hp
      rcases List.mem_cons.1 hp with hp | hp
      · rw [hp]
        exact h1
      · exact h2 p hp
    · rw [if_neg h]
      obtain ⟨h1, h2⟩ := ih acc
      refine ⟨h1, ?_⟩
      intro p hp
      rcases List.mem_cons.1 hp with hp | hp
      · rw [hp]
        exact le_trans (not_lt.1 h) h1
      · exact h2 p hp

theorem tracePath_prefix (todos : List Todo) (es ct : List (Int × Int)) :
    ∀ (fuel : Nat) (x : Int) (path vis : List Int),
      ∃ q, (tracePath todos es ct fuel x path vis).1 = path ++ q := by
  intro fuel
  induction fuel with
  | zero => intro x path vis; exact ⟨[], by simp [tracePath]⟩
  | succ fuel ih =>
    intro x path vis
    by_cases hx : x ∈ vis
    · exact ⟨[], by simp [tracePath, hx]⟩
    · cases hft : findTodo todos x with
      | none => exact ⟨[x], by simp [tracePath, hx, hft]⟩
      | some todo =>
        by_cases hcd :
            selectDep (parseDeps todo) ct ((jget es x).getD 0) = -1
        · exact ⟨[x], by simp [tracePath, hx, hft, hcd]⟩
        · have hstep : tracePath todos es ct (fuel + 1) x path vis =
              tracePath todos es ct fuel
                (selectDep (parseDeps todo) ct ((jget es x).getD 0))
                (path ++ [x]) (x :: vis) := by
            simp [tracePath, hx, hft, hcd]
          obtain ⟨q, hq⟩ := ih _ (path ++ [x]) (x :: vis)
          refine ⟨[x] ++ q, ?_⟩
          rw [hstep, hq]
          simp

theorem tracePath_mem_head (todos : List Todo) (es ct : List (Int × Int))
    (fuel : Nat) (x : Int) (path vis : List Int) (hx : x ∉ vis) :
    x ∈ (tracePath todos es ct (fuel + 1) x path vis).1 := by
  cases hft : findTodo todos x with
  | none => simp [tracePath, hx, hft]
  | some todo =>
    by_cases hcd : selectDep (parseDeps todo) ct ((jget es x).getD 0) = -1
    · simp [tracePath, hx, hft, hcd]
    · have hstep : tracePath todos es ct (fuel + 1) x path vis =
          tracePath todos es ct fuel
            (selectDep (parseDeps todo) ct ((jget es x).getD 0))
            (path ++ [x]) (x :: vis) := by
        simp [tracePath, hx, hft, hcd]
      rw [hstep]
      obtain ⟨q, hq⟩ := tracePath_prefix todos es ct fuel _ (path ++ [x]) (x :: vis)
      rw [hq]
      simp

/-- claim C5 (status: corrected).  With at least one task, unique ids,
an acyclic graph, no task carrying the sentinel id `-1`, nonnegative
clock samples and positive effective durations, at least one returned
task is flagged on the critical path.  (Without these conditions the
flag set can be empty: on a cyclic collection the completion map stays
empty and the end-task sentinel survives, see the counterexample.) -/
theorem criticalPath_nonempty (clk : Nat → Int) (todos : List Todo)
    (hnd : (idsOf todos).Nodup) (hacy : Acyclic todos)
    (hne : todos ≠ [])
    (hm1 : (-1 : Int) ∉ idsOf todos)
    (hclk : ∀ i, 0 ≤ clk i)
    (hdur : ∀ t ∈ todos, 0 < effDuration t) :
    ∃ r ∈ calculateSchedule clk todos, r.isOnCriticalPath = true := by
  obtain ⟨g, dd, _, _, _, _, hndres, hsubres, _, _⟩ :=
    topologicalSort_raw todos hnd
  obtain ⟨es, ct, hfold, hmaps, hkes, hkct, hidx⟩ :=
    scheduleMaps_spec clk todos hnd
  have hsne : topologicalSort todos ≠ [] := by
    obtain ⟨t0, ht0⟩ := List.exists_mem_of_ne_nil todos hne
    have hmem : t0.id ∈ topologicalSort todos :=
      (topologicalSort_mem_iff_acc todos hnd t0.id).2
        ⟨List.mem_map.2 ⟨t0, ht0, rfl⟩, hacy t0.id⟩
    intro hc
    rw [hc] at hmem
    simp at hmem
  have hposval : ∀ (j : Nat) (hj : j < (topologicalSort todos).length),
      ∃ v, jget ct ((topologicalSort todos).get ⟨j, hj⟩) = some v ∧ 0 < v := by
    intro j hj
    obtain ⟨t, ctj, hft, _, _, _, hct⟩ := hidx j hj
    have htmem : t ∈ todos := List.mem_of_find?_eq_some hft
    have htpos : (1 : Int) ≤ effDuration t := hdur t htmem
    refine ⟨_, hct, ?_⟩
    have h1 : 0 ≤ clk j := hclk j
    have h2 := depMax_ge_now ctj (parseDeps t) (clk j)
    have hmul : (3600000 : Int) ≤ effDuration t * 3600000 := by
      calc (3600000 : Int) = 1 * 3600000 := by ring
      _ ≤ effDuration t * 3600000 :=
        mul_le_mul_of_nonneg_right htpos (by norm_num)
    omega
  have hctnd : (jkeys ct).Nodup := by
    rw [hkct]
    exact hndres
  have hctpos : ∀ p ∈ ct, 0 < p.2 := by
    intro p hp
    have hpk : p.1 ∈ jkeys ct := List.mem_map.2 ⟨p, hp, rfl⟩
    rw [hkct] at hpk
    obtain ⟨⟨j, hj⟩, hgj⟩ := List.mem_iff_get.1 hpk
    obtain ⟨v, hv, hvpos⟩ := hposval j hj
    rw [hgj] at hv
    have hjp : jget ct p.1 = some p.2 :=
      jget_of_mem_nodup ct p.1 p.2 hctnd (by simpa using hp)
    rw [hjp] at hv
    have : p.2 = v := by simpa using hv
    omega
  have hctne : ct ≠ [] := by
    intro hc
    apply hsne
    rw [← hkct, hc]
    rfl
  obtain ⟨p, hpct, hefp⟩ :
      ∃ p ∈ ct, ct.foldl (fun acc p => if p.2 > acc.1 then (p.2, p.1) else acc)
        (0, -1) = (p.2, p.1) := by
    rcases endFold_cases ct (0, -1) with h | h
    · exfalso
      obtain ⟨p0, hp0⟩ := List.exists_mem_of_ne_nil ct hctne
      have hle := (endFold_fst_ge ct (0, -1)).2 p0 hp0
      rw [h] at hle
      simp only at hle
      have := hctpos p0 hp0
      omega
    · exact h
  have hp1K : p.1 ∈ topologicalSort todos := by
    rw [← hkct]
    exact List.mem_map.2 ⟨p, hpct, rfl⟩
  have hp1ids : p.1 ∈ idsOf todos := hsubres p.1 hp1K
  have hp1ne : p.1 ≠ -1 := fun hc => hm1 (hc ▸ hp1ids)
  have hpath : p.1 ∈ findCriticalPath todos es ct := by
    simp only [findCriticalPath]
    rw [hefp]
    simp only
    rw [if_neg hp1ne]
    rw [List.mem_reverse]
    exact tracePath_mem_head todos es ct ct.length p.1 [] [] (by simp)
  obtain ⟨u, hfu, humem, huid⟩ := findTodo_some_of_mem_ids todos p.1 hp1ids
  refine ⟨{ base := u, dependsOn := parseDeps u,
            earliestStart := jget (scheduleMaps clk todos).1 u.id,
            isOnCriticalPath :=
              (findCriticalPath todos (scheduleMaps clk todos).1
                (scheduleMaps clk todos).2).contains u.id }, ?_, ?_⟩
  · simp only [calculateSchedule]
    exact List.mem_map.2 ⟨u, humem, rfl⟩
  · simp only
    rw [hmaps]
    simp only
    rw [huid]
    simpa using hpath

/-- Witness for the amended C5 at Scenario A under the constant zero
clock: both hypotheses and the flagged result are exhibited. -/
theorem criticalPath_nonempty_witness :
    ((idsOf schedEx).Nodup ∧ schedEx ≠ [] ∧
      ((-1 : Int) ∉ idsOf schedEx) ∧ (∀ t ∈ schedEx, 0 < effDuration t)) ∧
    ∃ r ∈ calculateSchedule (fun _ => 0) schedEx,
      r.isOnCriticalPath = true := by
  have hnd : (idsOf schedEx).Nodup := by decide
  have hacc1 : Acc (DepRel schedEx) 1 := by
    refine Acc.intro 1 (fun e he => ?_)
    have hdd : e ∈ depsOfId schedEx 1 := he.2.2
    rw [show depsOfId schedEx 1 = [] from by decide] at hdd
    simp at hdd
  have hacy : Acyclic schedEx := by
    intro v
    refine Acc.intro v (fun e he => ?_)
    have hv : v ∈ idsOf schedEx := he.1
    rw [show idsOf schedEx = [1, 2] from by decide] at hv
    have hdd : e ∈ depsOfId schedEx v := he.2.2
    rcases List.mem_cons.1 hv with hv | hv
    · subst hv
      rw [show depsOfId schedEx 1 = [] from by decide] at hdd
      simp at hdd
    · have hv2 : v = 2 := by simpa using hv
      subst hv2
      rw [show depsOfId schedEx 2 = [1] from by decide] at hdd
      have he1 : e = 1 := by simpa using hdd
      subst he1
      exact hacc1
  refine ⟨⟨hnd, by simp [schedEx], by decide, by decide⟩, ?_⟩
  exact criticalPath_nonempty (fun _ => 0) schedEx hnd hacy
    (by simp [schedEx]) (by decide) (fun i => le_refl 0) (by decide)

/-- `d` qualifies during the trace scan from start `start`: it has a
recorded completion `c` within the 1000 ms tolerance of `start`. -/
abbrev Qual (ct : List (Int × Int)) (start : Int) (d : Int) (c : Int) :
    Prop :=
  jget ct d = some c ∧ (c - start).natAbs < 1000

theorem selectDep_def (deps : List Int) (ct : List (Int × Int))
    (start : Int) :
    selectDep deps ct start = (deps.foldl (selStep ct start) (-1, 0)).1 :=
  rfl

theorem mem_of_eq_append_cons {l l1 l2 : List Int} {r : Int}
    (h : l = l1 ++ r :: l2) : r ∈ l := by
  subst h
  exact List.mem_append_right _ (List.mem_cons_self _ _)

theorem selStep_foldl_spec (ct : List (Int × Int)) (start : Int) :
    ∀ (deps : List Int) (acc : Int × Int),
      (deps.foldl (selStep ct start) acc = acc ∧
        ∀ d ∈ deps, ∀ c, Qual ct start d c → c ≤ acc.2) ∨
      (∃ l1 l2 c,
        deps = l1 ++ (deps.foldl (selStep ct start) acc).1 :: l2 ∧
        Qual ct start (deps.foldl (selStep ct start) acc).1 c ∧
        (deps.foldl (selStep ct start) acc).2 = c ∧
        acc.2 < c ∧
        (∀ d ∈ deps, ∀ c', Qual ct start d c' → c' ≤ c) ∧
        (∀ d ∈ l1, ∀ c', Qual ct start d c' → c' < c)) := by
  intro deps
  induction deps with
  | nil =>
    intro acc
    exact Or.inl ⟨rfl, by simp⟩
  | cons d rest ih =>
    intro acc
    rw [List.foldl_cons]
    cases hjd : jget ct d with
    | none =>
      have hstep : selStep ct start acc d = acc := by
        simp [selStep, hjd]
      rw [hstep]
      have hnq : ∀ c, ¬ Qual ct start d c := by
        intro c hq
        exact Option.noConfusion (hjd.symm.trans hq.1)
      rcases ih acc with ⟨h1, h2⟩ | ⟨l1, l2, c, h1, h2, h3, h4, h5, h6⟩
      · left
        refine ⟨h1, ?_⟩
        intro e he c hq
        rcases List.mem_cons.1 he with he | he
        · subst he
          exact absurd hq (hnq c)
        · exact h2 e he c hq
      · right
        refine ⟨d :: l1, l2, c, by rw [List.cons_append, ← h1], h2, h3, h4,
          ?_, ?_⟩
        · intro e he c' hq
          rcases List.mem_cons.1 he with he | he
          · subst he
            exact absurd hq (hnq c')
          · exact h5 e he c' hq
        · intro e he c' hq
          rcases List.mem_cons.1 he with he | he
          · subst he
            exact absurd hq (hnq c')
          · exact h6 e he c' hq
    | some c0 =>
      by_cases htol : (c0 - start).natAbs < 1000
      · by_cases hgt : c0 > acc.2
        · have hstep : selStep ct start acc d = (d, c0) := by
            simp [selStep, hjd, htol, hgt]
          rw [hstep]
          rcases ih (d, c0) with ⟨h1, h2⟩ | ⟨l1, l2, c, h1, h2, h3, h4, h5, h6⟩
          · right
            refine ⟨[], rest, c0, ?_, ?_, ?_, hgt, ?_, by simp⟩
            · rw [h1]
              rfl
            · rw [h1]
              exact ⟨hjd, htol⟩
            · rw [h1]
            · intro e he c' hq
              rcases List.mem_cons.1 he with he | he
              · subst he
                have hcc : c0 = c' := Option.some.inj (hjd.symm.trans hq.1)
                omega
              · have hle := h2 e he c' hq
                exact hle
          · right
            have h4' : c0 < c := h4
            refine ⟨d :: l1, l2, c, by rw [List.cons_append, ← h1], h2, h3,
              lt_trans hgt h4', ?_, ?_⟩
            · intro e he c' hq
              rcases List.mem_cons.1 he with he | he
              · subst he
                have hcc : c0 = c' := Option.some.inj (hjd.symm.trans hq.1)
                omega
              · exact h5 e he c' hq
            · intro e he c' hq
              rcases List.mem_cons.1 he with he | he
              · subst he
                have hcc : c0 = c' := Option.some.inj (hjd.symm.trans hq.1)
                omega
              · exact h6 e he c' hq
        · have hstep : selStep ct start acc d = acc := by
            simp [selStep, hjd, htol, hgt]
          rw [hstep]
          have hle : c0 ≤ acc.2 := not_lt.1 hgt
          rcases ih acc with ⟨h1, h2⟩ | ⟨l1, l2, c, h1, h2, h3, h4, h5, h6⟩
          · left
            refine ⟨h1, ?_⟩
            intro e he c' hq
            rcases List.mem_cons.1 he with he | he
            · subst he
              have hcc : c0 = c' := Option.some.inj (hjd.symm.trans hq.1)
              omega
            · exact h2 e he c' hq
          · right
            refine ⟨d :: l1, l2, c, by rw [List.cons_append, ← h1], h2, h3,
              h4, ?_, ?_⟩
            · intro e he c' hq
              rcases List.mem_cons.1 he with he | he
              · subst he
                have hcc : c0 = c' := Option.some.inj (hjd.symm.trans hq.1)
                omega
              · exact h5 e he c' hq
            · intro e he c' hq
              rcases List.mem_cons.1 he with he | he
              · subst he
                have hcc : c0 = c' := Option.some.inj (hjd.symm.trans hq.1)
                omega
              · exact h6 e he c' hq
      · have hstep : selStep ct start acc d = acc := by
          simp [selStep, hjd, htol]
        rw [hstep]
        have hnq : ∀ c, ¬ Qual ct start d c := by
          intro c hq
          have hcc : c0 = c := Option.some.inj (hjd.symm.trans hq.1)
          subst hcc
          exact htol hq.2
        rcases ih acc with ⟨h1, h2⟩ | ⟨l1, l2, c, h1, h2, h3, h4, h5, h6⟩
        · left
          refine ⟨h1, ?_⟩
          intro e he c hq
          rcases List.mem_cons.1 he with he | he
          · subst he
            exact absurd hq (hnq c)
          · exact h2 e he c hq
        · right
          refine ⟨d :: l1, l2, c, by rw [List.cons_append, ← h1], h2, h3, h4,
            ?_, ?_⟩
          · intro e he c' hq
            rcases List.mem_cons.1 he with he | he
            · subst he
              exact absurd hq (hnq c')
            · exact h5 e he c' hq
          · intro e he c' hq
            rcases List.mem_cons.1 he with he | he
            · subst he
              exact absurd hq (hnq c')
            · exact h6 e he c' hq

theorem selectDep_neg_one_iff (deps : List Int) (ct : List (Int × Int))
    (start : Int) (hd : (-1 : Int) ∉ deps) :
    (selectDep deps ct start = -1 ↔
      ∀ d ∈ deps, ∀ c, Qual ct start d c → c ≤ 0) := by
  constructor
  · intro heq
    rcases selStep_foldl_spec ct start deps (-1, 0) with
      ⟨h1, h2⟩ | ⟨l1, l2, c, h1, h2, h3, h4, h5, h6⟩
    · intro d hdm c hq
      exact h2 d hdm c hq
    · exfalso
      rw [selectDep_def] at heq
      rw [heq] at h1
      exact hd (mem_of_eq_append_cons h1)
  · intro hall
    rcases selStep_foldl_spec ct start deps (-1, 0) with
      ⟨h1, h2⟩ | ⟨l1, l2, c, h1, h2, h3, h4, h5, h6⟩
    · rw [selectDep_def, h1]
    · exfalso
      have hmem := mem_of_eq_append_cons h1
      have hle := hall _ hmem c h2
      have h4' : (0 : Int) < c := h4
      omega

theorem selectDep_selected_spec (deps : List Int) (ct : List (Int × Int))
    (start : Int) (hne : selectDep deps ct start ≠ -1) :
    ∃ l1 l2 c, deps = l1 ++ selectDep deps ct start :: l2 ∧
      Qual ct start (selectDep deps ct start) c ∧ 0 < c ∧
      (∀ d ∈ deps, ∀ c', Qual ct start d c' → c' ≤ c) ∧
      (∀ d ∈ l1, ∀ c', Qual ct start d c' → c' < c) := by
  rcases selStep_foldl_spec ct start deps (-1, 0) with
    ⟨h1, h2⟩ | ⟨l1, l2, c, h1, h2, h3, h4, h5, h6⟩
  · exact absurd (by rw [selectDep_def, h1]) hne
  · refine ⟨l1, l2, c, ?_, ?_, ?_, h5, h6⟩
    · rw [selectDep_def]
      exact h1
    · rw [selectDep_def]
      exact h2
    · exact h4

/-- One backward step of the critical-path trace as a function: the
dependency `tracePath` recurses into from the current task, `-1`
meaning "stop" (unknown task, or sentinel selection because no
dependency completion within tolerance exceeds the epoch). -/
def traceStep (todos : List Todo) (es ct : List (Int × Int))
    (x : Int) : Int :=
  match findTodo todos x with
  | none => -1
  | some todo => selectDep (parseDeps todo) ct ((jget es x).getD 0)

theorem length_filter_mono (p q : Int → Bool)
    (hpq : ∀ a, p a = true → q a = true) :
    ∀ l : List Int, (l.filter p).length ≤ (l.filter q).length := by
  intro l
  induction l with
  | nil => simp
  | cons a l ih =>
    rw [List.filter_cons, List.filter_cons]
    by_cases hp : p a = true
    · rw [if_pos hp, if_pos (hpq a hp)]
      simp only [List.length_cons]
      omega
    · rw [if_neg hp]
      by_cases hq : q a = true
      · rw [if_pos hq]
        simp only [List.length_cons]
        omega
      · rw [if_neg hq]
        exact ih

theorem length_filter_vis_lt (x : Int) :
    ∀ (l vis : List Int), x ∈ l → x ∉ vis →
      ((l.filter (fun k => k ∉ x :: vis)).length <
        (l.filter (fun k => k ∉ vis)).length) := by
  intro l
  induction l with
  | nil =>
    intro vis hx hxv
    simp at hx
  | cons a l ih =>
    intro vis hx hxv
    rw [List.filter_cons, List.filter_cons]
    by_cases hax : a = x
    · subst hax
      rw [if_neg (by simp), if_pos (by simp [hxv])]
      have hsub : ∀ b : Int,
          (decide (b ∉ a :: vis)) = true → (decide (b ∉ vis)) = true := by
        intro b hb
        simp only [decide_eq_true_eq, List.mem_cons] at hb ⊢
        intro hbv
        exact hb (Or.inr hbv)
      have hmono := length_filter_mono _ _ hsub l
      simp only [List.length_cons]
      omega
    · have hx' : x ∈ l := by
        rcases List.mem_cons.1 hx with h | h
        · exact absurd h.symm hax
        · exact h
      have hlt := ih vis hx' hxv
      by_cases hav : a ∈ vis
      · rw [if_neg (by simp [hav]), if_neg (by simp [hav])]
        exact hlt
      · rw [if_pos (by simp [hax, hav]), if_pos (by simp [hav])]
        simp only [List.length_cons]
        omega

theorem tracePath_chain (todos : List Todo) (es ct : List (Int × Int)) :
    ∀ (fuel : Nat) (x : Int) (vis : List Int),
      vis.Nodup → x ∈ jkeys ct →
      ((jkeys ct).filter (fun k => k ∉ vis)).length < fuel →
      ∃ ext,
        (tracePath todos es ct fuel x vis.reverse vis).1 =
          vis.reverse ++ ext ∧
        (tracePath todos es ct fuel x vis.reverse vis).2 =
          ext.reverse ++ vis ∧
        (tracePath todos es ct fuel x vis.reverse vis).2.Nodup ∧
        List.Chain' (fun a b => traceStep todos es ct a = b ∧ b ≠ -1) ext ∧
        (x ∉ vis →
          ext.head? = some x ∧
          ∀ z, ext.getLast? = some z →
            traceStep todos es ct z = -1 ∨
              traceStep todos es ct z ∈
                (tracePath todos es ct fuel x vis.reverse vis).2) ∧
        (x ∈ vis → ext = []) := by
  intro fuel
  induction fuel with
  | zero =>
    intro x vis hnd hx hfuel
    omega
  | succ fuel ih =>
    intro x vis hnd hx hfuel
    by_cases hxv : x ∈ vis
    · have hred : tracePath todos es ct (fuel + 1) x vis.reverse vis =
          (vis.reverse, vis) := by
        rw [tracePath, if_pos hxv]
      refine ⟨[], ?_, ?_, ?_, List.chain'_nil, fun hc => absurd hxv hc,
        fun _ => rfl⟩
      · rw [hred]
        simp
      · rw [hred]
        simp
      · rw [hred]
        exact hnd
    · have hvnd2 : (x :: vis).Nodup := List.nodup_cons.2 ⟨hxv, hnd⟩
      cases hft : findTodo todos x with
      | none =>
        have hred : tracePath todos es ct (fuel + 1) x vis.reverse vis =
            (vis.reverse ++ [x], x :: vis) := by
          simp [tracePath, hxv, hft]
        refine ⟨[x], ?_, ?_, ?_, ?_, ?_, fun hc => absurd hc hxv⟩
        · rw [hred]
        · rw [hred]
          simp
        · rw [hred]
          exact hvnd2
        · simp
        · intro _
          refine ⟨rfl, ?_⟩
          intro z hz
          have hzx : x = z := by simpa using hz
          subst hzx
          left
          simp only [traceStep, hft]
      | some todo =>
        by_cases hcd :
            selectDep (parseDeps todo) ct ((jget es x).getD 0) = -1
        · have hred : tracePath todos es ct (fuel + 1) x vis.reverse vis =
              (vis.reverse ++ [x], x :: vis) := by
            simp [tracePath, hxv, hft, hcd]
          refine ⟨[x], ?_, ?_, ?_, ?_, ?_, fun hc => absurd hc hxv⟩
          · rw [hred]
          · rw [hred]
            simp
          · rw [hred]
            exact hvnd2
          · simp
          · intro _
            refine ⟨rfl, ?_⟩
            intro z hz
            have hzx : x = z := by simpa using hz
            subst hzx
            left
            simp only [traceStep, hft]
            exact hcd
        · obtain ⟨l1, l2, c, hspl, hq, hcpos, hglob, hstrict⟩ :=
            selectDep_selected_spec (parseDeps todo) ct
              ((jget es x).getD 0) hcd
          have hcdk : selectDep (parseDeps todo) ct ((jget es x).getD 0) ∈
              jkeys ct := by
            refine (jget_isSome_iff_mem_jkeys ct _).1 ?_
            rw [hq.1]
            rfl
          have hfuel2 :
              ((jkeys ct).filter (fun k => k ∉ x :: vis)).length < fuel := by
            have hdec := length_filter_vis_lt x (jkeys ct) vis hx hxv
            omega
          obtain ⟨ext', he1, he2, he3, he4, he5, he6⟩ :=
            ih (selectDep (parseDeps todo) ct ((jget es x).getD 0))
              (x :: vis) hvnd2 hcdk hfuel2
          have hred : tracePath todos es ct (fuel + 1) x vis.reverse vis =
              tracePath todos es ct fuel
                (selectDep (parseDeps todo) ct ((jget es x).getD 0))
                ((x :: vis).reverse) (x :: vis) := by
            simp [tracePath, hxv, hft, hcd]
          refine ⟨x :: ext', ?_, ?_, ?_, ?_, ?_, fun hc => absurd hc hxv⟩
          · rw [hred, he1, List.reverse_cons, List.append_assoc]
            rfl
          · rw [hred, he2, List.reverse_cons, List.append_assoc]
            rfl
          · rw [hred]
            exact he3
          · by_cases hcv :
                selectDep (parseDeps todo) ct ((jget es x).getD 0) ∈ x :: vis
            · rw [he6 hcv]
              simp
            · have hh := he5 hcv
              refine List.chain'_cons'.2 ⟨?_, he4⟩
              intro b hb
              rw [hh.1] at hb
              have hbcd :
                  selectDep (parseDeps todo) ct ((jget es x).getD 0) = b := by
                simpa using hb
              subst hbcd
              refine ⟨?_, hcd⟩
              simp only [traceStep, hft]
          · intro _
            refine ⟨rfl, ?_⟩
            intro z hz
            by_cases hcv :
                selectDep (parseDeps todo) ct ((jget es x).getD 0) ∈ x :: vis
            · have hext : ext' = [] := he6 hcv
              subst hext
              have hzx : x = z := by simpa using hz
              subst hzx
              right
              rw [hred, he2]
              have hts : traceStep todos es ct x =
                  selectDep (parseDeps todo) ct ((jget es x).getD 0) := by
                simp only [traceStep, hft]
              rw [hts]
              simpa using hcv
            · have hh := he5 hcv
              have hne' : ext' ≠ [] := by
                intro h0
                rw [h0] at hh
                simp at hh
              have hlast : (x :: ext').getLast? = ext'.getLast? := by
                cases ext' with
                | nil => exact absurd rfl hne'
                | cons a t => exact List.getLast?_cons_cons
              rw [hlast] at hz
              rcases hh.2 z hz with h | h
              · exact Or.inl h
              · right
                rw [hred]
                exact h

theorem findCriticalPath_trace_struct (todos : List Todo)
    (es ct : List (Int × Int)) :
    (findCriticalPath todos es ct).Nodup ∧
    List.Chain' (fun b a => traceStep todos es ct a = b ∧ b ≠ -1)
      (findCriticalPath todos es ct) ∧
    ∀ z, (findCriticalPath todos es ct).head? = some z →
      traceStep todos es ct z = -1 ∨
        traceStep todos es ct z ∈ findCriticalPath todos es ct := by
  have hfc : findCriticalPath todos es ct =
      (if (ct.foldl (fun acc p => if p.2 > acc.1 then (p.2, p.1) else acc)
          (0, -1)).2 = -1 then ([] : List Int)
       else (tracePath todos es ct (ct.length + 1)
          (ct.foldl (fun acc p => if p.2 > acc.1 then (p.2, p.1) else acc)
            (0, -1)).2 [] []).1.reverse) := rfl
  by_cases hend : (ct.foldl (fun acc p => if p.2 > acc.1 then (p.2, p.1)
      else acc) (0, -1)).2 = -1
  · rw [hfc, if_pos hend]
    refine ⟨List.nodup_nil, List.chain'_nil, ?_⟩
    intro z hz
    simp at hz
  · have hmem : (ct.foldl (fun acc p => if p.2 > acc.1 then (p.2, p.1)
        else acc) (0, -1)).2 ∈ jkeys ct := by
      rcases endFold_cases ct (0, -1) with h | ⟨p, hp, h⟩
      · rw [h] at hend
        exact absurd rfl hend
      · rw [h]
        exact List.mem_map_of_mem _ hp
    have hfuel : ((jkeys ct).filter
        (fun k => k ∉ ([] : List Int))).length < ct.length + 1 := by
      have h1 : (jkeys ct).filter (fun k => k ∉ ([] : List Int)) =
          jkeys ct := by
        simp
      rw [h1]
      have h2 : (jkeys ct).length = ct.length := by
        simp [jkeys]
      omega
    obtain ⟨ext, he1, he2, he3, he4, he5, he6⟩ :=
      tracePath_chain todos es ct (ct.length + 1) _ [] List.nodup_nil
        hmem hfuel
    simp only [List.reverse_nil, List.nil_append, List.append_nil]
      at he1 he2 he3 he5
    obtain ⟨hhead, hstop⟩ := he5 (by simp)
    rw [he2] at he3 hstop
    rw [hfc, if_neg hend, he1]
    refine ⟨?_, ?_, ?_⟩
    · exact he3
    · exact List.chain'_reverse.2 he4
    · intro z hz
      rw [List.head?_reverse] at hz
      rcases hstop z hz with h | h
      · exact Or.inl h
      · exact Or.inr h

/-- claim C6 (status: corrected).  Backward-trace selection and
structure, with one correction: a qualifying dependency must also have
a completion strictly after the epoch 0, because the selection scan
starts its running latest at the `new Date(0)` sentinel (see the
counterexample, where a dependency within tolerance is skipped).
Part 1: absent the sentinel id `-1` among the dependencies, the scan
returns `-1` exactly when no dependency with a recorded completion
within 1000 ms of the current start has a positive completion.
Part 2: a non-sentinel selection is a dependency of the current task
whose recorded completion lies within 1000 ms of the current start and
is positive, no qualifying completion exceeds it, and every dependency
listed before the selected one has a strictly smaller qualifying
completion (first-encountered wins an exact tie).  Part 3: the
returned critical path never revisits a task (it is duplicate-free),
consecutive tasks are linked by the selection step (each task's
selected predecessor precedes it), and the trace stopped at the path's
deepest task either because no dependency qualified (step `-1`) or
because the selected dependency was already visited. -/
theorem tracePath_selection_correct :
    (∀ (deps : List Int) (ct : List (Int × Int)) (start : Int),
      (-1 : Int) ∉ deps →
      (selectDep deps ct start = -1 ↔
        ∀ d ∈ deps, ∀ c, Qual ct start d c → c ≤ 0)) ∧
    (∀ (deps : List Int) (ct : List (Int × Int)) (start : Int),
      selectDep deps ct start ≠ -1 →
      ∃ l1 l2 c, deps = l1 ++ selectDep deps ct start :: l2 ∧
        Qual ct start (selectDep deps ct start) c ∧ 0 < c ∧
        (∀ d ∈ deps, ∀ c', Qual ct start d c' → c' ≤ c) ∧
        (∀ d ∈ l1, ∀ c', Qual ct start d c' → c' < c)) ∧
    (∀ (todos : List Todo) (es ct : List (Int × Int)),
      (findCriticalPath todos es ct).Nodup ∧
      List.Chain' (fun b a => traceStep todos es ct a = b ∧ b ≠ -1)
        (findCriticalPath todos es ct) ∧
      ∀ z, (findCriticalPath todos es ct).head? = some z →
        traceStep todos es ct z = -1 ∨
          traceStep todos es ct z ∈ findCriticalPath todos es ct) :=
  ⟨selectDep_neg_one_iff, selectDep_selected_spec,
   findCriticalPath_trace_struct⟩

theorem tracePath_selection_correct_witness :
    ((-1 : Int) ∉ [(1 : Int)] ∧
      (selectDep [1] [((1 : Int), (5 : Int))] 5 = -1 ↔
        ∀ d ∈ [(1 : Int)], ∀ c, Qual [((1 : Int), (5 : Int))] 5 d c →
          c ≤ 0)) ∧
    (selectDep [1] [((1 : Int), (5 : Int))] 5 ≠ -1 ∧
      ∃ l1 l2 c,
        [(1 : Int)] = l1 ++ selectDep [1] [((1 : Int), (5 : Int))] 5 :: l2 ∧
        Qual [((1 : Int), (5 : Int))] 5
          (selectDep [1] [((1 : Int), (5 : Int))] 5) c ∧ 0 < c ∧
        (∀ d ∈ [(1 : Int)], ∀ c',
          Qual [((1 : Int), (5 : Int))] 5 d c' → c' ≤ c) ∧
        (∀ d ∈ l1, ∀ c',
          Qual [((1 : Int), (5 : Int))] 5 d c' → c' < c)) :=
  ⟨⟨by decide, tracePath_selection_correct.1 [1] [(1, 5)] 5 (by decide)⟩,
   ⟨by decide, tracePath_selection_correct.2.1 [1] [(1, 5)] 5 (by decide)⟩⟩
